import Mathlib

/-!
Verification of the proof-tree engine of `metamath-knife` (`src/metamath-rs/src/proof.rs`)
against its natural-language specification.  The Rust code is shallowly embedded:
machine integers become `Nat` (the `u16` indent values keep the sentinel `65535`),
panics become `Option` results, the `HashMap` becomes an association list, and the
`DefaultHasher` is abstracted as an arbitrary function `mkHash` combining an address
with the already-computed child hashes (exactly the data the Rust hasher consumes).
-/

set_option maxRecDepth 10000

/-- Opaque external identifier of a database statement (`StatementAddress` in
`statement.rs`, outside the core).  Modelled from the spec: only equality and
hashability of addresses are used by the proof-tree engine. -/
structure StatementAddress where
  id : Nat
deriving DecidableEq

instance : Inhabited StatementAddress := ⟨⟨0⟩⟩

/-- `ProofTree` (proof.rs): the applied statement, the child indices into the
parent array, and the precomputed structural hash. -/
structure ProofTree where
  address : StatementAddress
  children : List Nat
  hash : Nat
deriving DecidableEq

instance : Inhabited ProofTree := ⟨⟨default, [], 0⟩⟩

/-- `ProofTreeArray` (proof.rs): hash-to-index map (association-list model of the
`HashMap`), the tree list, the optional per-node expression strings (bytes as `Nat`),
the QED index and the indent array (u16 values as `Nat`, sentinel `65535`). -/
structure ProofTreeArray where
  map : List (Nat × Nat)
  trees : List ProofTree
  exprs : Option (List (List Nat))
  qed : Nat
  indent : List Nat
deriving DecidableEq

/-- `ProofTreeArray::new` (proof.rs). -/
def ProofTreeArray.new (enable_exprs : Bool) : ProofTreeArray :=
  ⟨[], [], if enable_exprs then some [] else none, 0, []⟩

/-- `RPNStep` (proof.rs): a normal step with an optional forward reference number
(0 = none), or a backreference step. -/
inductive RPNStep where
  | Normal (fwdref : Nat) (addr : StatementAddress) (hyp : Option (StatementAddress × Nat))
  | Backref (backref : Nat) (hyp : Option (StatementAddress × Nat))
deriving DecidableEq

/-- `ProofStyle` (proof.rs). -/
inductive ProofStyle where
  | Compressed
  | Normal
  | Packed
  | Explicit
  | PackedExplicit
deriving DecidableEq

/-- `ProofStyle::explicit` (proof.rs). -/
def ProofStyle.explicit : ProofStyle → Bool
  | .Explicit | .PackedExplicit => true
  | _ => false

/-- `ProofStyle::packed` (proof.rs). -/
def ProofStyle.packed : ProofStyle → Bool
  | .Compressed | .Packed | .PackedExplicit => true
  | _ => false

/-- Lookup in the association-list model of `HashMap::get`. -/
def mapGet (m : List (Nat × Nat)) (k : Nat) : Option Nat :=
  (m.find? fun p => p.1 == k).map Prod.snd

/-- The child-hash collection loop of `ProofTree::new` (proof.rs):
`for &ix in &children { parent.trees[ix].hash(&mut hasher) }`.
Returns `none` exactly when some child index is out of range (a Rust index panic). -/
def childHashes (trees : List ProofTree) : List Nat → Option (List Nat)
  | [] => some []
  | ix :: rest =>
    (trees.get? ix).bind fun t => (childHashes trees rest).map fun hs => t.hash :: hs

/-- `ProofTree::new` (proof.rs).  `mkHash` abstracts the `DefaultHasher` combination
of the address with the child hashes; `none` models the index panic on an
out-of-range child. -/
def ProofTree.new (mkHash : StatementAddress → List Nat → Nat) (parent : ProofTreeArray)
    (address : StatementAddress) (children : List Nat) : Option ProofTree :=
  (childHashes parent.trees children).map fun hs => ⟨address, children, mkHash address hs⟩

/-- `ProofTreeArray::index` (proof.rs): hash-based lookup of a tree. -/
def ProofTreeArray.index (self : ProofTreeArray) (tree : ProofTree) : Option Nat :=
  mapGet self.map tree.hash

/-- One iteration of the expression-decoding loop in `ProofBuilder::build` (proof.rs):
a byte with the high bit clear is emitted verbatim, otherwise the byte with the high
bit cleared is emitted followed by a space byte. -/
def emitByte (u : List Nat) (chr : Nat) : List Nat :=
  if chr &&& 0x80 == 0 then u ++ [chr] else u ++ [chr &&& 0x7F, 0x20]

/-- The expression construction of `ProofBuilder::build` (proof.rs): start from a
single space byte, run the emission loop, then pop the final byte. -/
def buildExpr (bytes : List Nat) : List Nat :=
  (bytes.foldl emitByte [0x20]).dropLast

/-- `ProofBuilder::build for ProofTreeArray` (proof.rs).  Returns the index of the
(possibly deduplicated) node together with the updated array; `none` models a panic
(out-of-range child index, or an invalid `expr` slice of `pool` when an expression
must be constructed). -/
def ProofTreeArray.build (self : ProofTreeArray) (mkHash : StatementAddress → List Nat → Nat)
    (addr : StatementAddress) (trees : List Nat) (pool : List Nat)
    (exprStart exprStop : Nat) : Option (Nat × ProofTreeArray) :=
  (ProofTree.new mkHash self addr trees).bind fun tree =>
    match self.index tree with
    | some ix => some (ix, self)
    | none =>
      let ix := self.trees.length
      match self.exprs with
      | none =>
        some (ix, { self with map := (tree.hash, ix) :: self.map, trees := self.trees ++ [tree] })
      | some exprs =>
        if exprStart ≤ exprStop ∧ exprStop ≤ pool.length then
          some (ix, { self with
            map := (tree.hash, ix) :: self.map,
            trees := self.trees ++ [tree],
            exprs := some (exprs ++ [buildExpr ((pool.drop exprStart).take (exprStop - exprStart))]) })
        else none

/-- `ProofTreeArray::count_parents` (proof.rs).  `none` models the `out[hix] += 1`
index panic when a child index is out of range. -/
def ProofTreeArray.count_parents (self : ProofTreeArray) : Option (List Nat) :=
  self.trees.foldl
    (fun acc tree => acc.bind fun out => tree.children.foldl
      (fun acc2 hix => acc2.bind fun out2 =>
        if hix < out2.length then some (out2.set hix (out2.getD hix 0 + 1)) else none)
      (some out))
    (some (List.replicate self.trees.length 0))

/-- The in-degree of node `i`: the number of times `i` occurs in a child list of
some node of the array (the reference value for `count_parents`). -/
def inDegree (arr : ProofTreeArray) (i : Nat) : Nat :=
  (arr.trees.map fun t => t.children.count i).sum

/-- The address stored at index `i` (junk default when out of range). -/
def addrOf (arr : ProofTreeArray) (i : Nat) : StatementAddress :=
  (arr.trees.getD i default).address

/-- The child list stored at index `i` (junk default when out of range). -/
def childrenOf (arr : ProofTreeArray) (i : Nat) : List Nat :=
  (arr.trees.getD i default).children

/-- Well-formedness by construction (spec section 3): every child index is the index
of an earlier node, hence strictly smaller than the referencing node's index. -/
def WFC (arr : ProofTreeArray) : Prop :=
  ∀ i < arr.trees.length, ∀ c ∈ childrenOf arr i, c < i

/-- All child indices stored in the array are in range (weaker than `WFC`). -/
def RangeOK (arr : ProofTreeArray) : Prop :=
  ∀ t ∈ arr.trees, ∀ c ∈ t.children, c < arr.trees.length

instance (arr : ProofTreeArray) : Decidable (WFC arr) := by
  unfold WFC; infer_instance

instance (arr : ProofTreeArray) : Decidable (RangeOK arr) := by
  unfold RangeOK; infer_instance

/-- The heap node of `ProofTreeArray::calc_indent` (proof.rs). -/
structure IndentNode where
  index : Nat
  cost : Nat
deriving DecidableEq

/-- Model of `BinaryHeap::pop` under the reversed (min-cost) ordering of
`calc_indent`: remove a node of minimal cost (the leftmost one; the Rust heap's
tie-breaking is unspecified and the final distances do not depend on it). -/
def popMin : List IndentNode → Option (IndentNode × List IndentNode)
  | [] => none
  | a :: rest =>
    match popMin rest with
    | none => some (a, [])
    | some (b, rest2) => if a.cost ≤ b.cost then some (a, rest) else some (b, a :: rest2)

/-- The relaxation loop over the children of the popped node in `calc_indent`
(proof.rs); `none` models the `dist[next.index]` index panic. -/
def relaxChildren (cost : Nat) : List Nat → List IndentNode × List Nat →
    Option (List IndentNode × List Nat)
  | [], hd => some hd
  | hix :: rest, (heap, dist) =>
    match dist.get? hix with
    | none => none
    | some d =>
      if cost + 1 < d then
        relaxChildren cost rest (⟨hix, cost + 1⟩ :: heap, dist.set hix (cost + 1))
      else
        relaxChildren cost rest (heap, dist)

/-- The main `while let Some(...) = heap.pop()` loop of `calc_indent` (proof.rs),
with a fuel bound (the loop always terminates within `dijkFuel`, proved below). -/
def dijkstra (arr : ProofTreeArray) : Nat → List IndentNode → List Nat → Option (List Nat)
  | 0, _, _ => none
  | fuel + 1, heap, dist =>
    match popMin heap with
    | none => some dist
    | some (nd, heap2) =>
      match dist.get? nd.index with
      | none => none
      | some d =>
        if d < nd.cost then dijkstra arr fuel heap2 dist
        else
          match relaxChildren nd.cost (childrenOf arr nd.index) (heap2, dist) with
          | none => none
          | some (heap3, dist3) => dijkstra arr fuel heap3 dist3

/-- A fuel bound sufficient for `dijkstra` to run to completion (each loop iteration
strictly decreases `heap.length + sum dist`). -/
def dijkFuel (arr : ProofTreeArray) : Nat :=
  65536 * arr.trees.length + 2

/-- `ProofTreeArray::calc_indent` (proof.rs).  `none` models a panic: the
`dist[self.qed] = 0` write panics when `qed` is out of range (also on the empty
array, where `qed` defaults to 0), and in-loop index panics propagate. -/
def ProofTreeArray.calc_indent (self : ProofTreeArray) : Option ProofTreeArray :=
  if self.qed < self.trees.length then
    (dijkstra self (dijkFuel self)
        [⟨self.qed, 0⟩]
        ((List.replicate self.trees.length 65535).set self.qed 0)).map
      fun dist => { self with indent := dist }
  else none

/-- The state captured by the `Env` struct of `ProofTreeArray::to_rpn` (proof.rs). -/
structure RpnEnv where
  out : List RPNStep
  backrefs : List Nat
  count : Nat
deriving DecidableEq

/-- The child work list produced by the `for (i, &hix) in tree.children.iter().enumerate()`
loop of `output_step` (proof.rs): each child paired with its hypothesis annotation. -/
def rpnKids (explicit : Bool) (tree : ProofTree) : List (Nat × Option (StatementAddress × Nat)) :=
  tree.children.enum.map fun p => (p.2, if explicit then some (tree.address, p.1) else none)

/-- The recursive `output_step` of `ProofTreeArray::to_rpn` (proof.rs), defunctionalized
over a work list of steps still to output at the current recursion level.  The fuel
bounds the recursion depth; for a well-formed array the depth is bounded by the node
index, so `trees.length + 1` fuel always suffices (proved below). -/
def output_steps (arr : ProofTreeArray) (parents : List Nat) (explicit : Bool) :
    Nat → List (Nat × Option (StatementAddress × Nat)) → RpnEnv → RpnEnv
  | 0, _, env => env
  | fuel + 1, todo, env =>
    todo.foldl
      (fun env p =>
        if env.backrefs.getD p.1 0 = 0 then
          let tree := arr.trees.getD p.1 default
          let env1 := output_steps arr parents explicit fuel (rpnKids explicit tree) env
          if 1 < parents.getD p.1 0 ∧ tree.children ≠ [] then
            ⟨env1.out ++ [RPNStep.Normal (env1.count + 1) tree.address p.2],
             env1.backrefs.set p.1 (env1.count + 1), env1.count + 1⟩
          else
            ⟨env1.out ++ [RPNStep.Normal 0 tree.address p.2], env1.backrefs, env1.count⟩
        else
          ⟨env.out ++ [RPNStep.Backref (env.backrefs.getD p.1 0) p.2], env.backrefs, env.count⟩)
      env

/-- The final `Env` of `ProofTreeArray::to_rpn` (proof.rs): empty output, one zeroed
backref slot per tree, zero counter, started at the QED step. -/
def ProofTreeArray.to_rpnEnv (self : ProofTreeArray) (parents : List Nat)
    (explicit : Bool) : RpnEnv :=
  output_steps self parents explicit (self.trees.length + 1) [(self.qed, none)]
    ⟨[], List.replicate self.trees.length 0, 0⟩

/-- `ProofTreeArray::to_rpn` (proof.rs): the output list of the final `Env`. -/
def ProofTreeArray.to_rpn (self : ProofTreeArray) (parents : List Nat)
    (explicit : Bool) : List RPNStep :=
  (self.to_rpnEnv parents explicit).out

/-- Node-tagged variant of `RpnEnv`: the output steps additionally record which node
emitted them.  Instrumented only for verification; it projects onto `RpnEnv`. -/
structure TEnv where
  out : List (Nat × RPNStep)
  backrefs : List Nat
  count : Nat
deriving DecidableEq

/-- Node-tagged variant of `output_steps`, identical except that each emitted step is
tagged with the node that produced it (projection lemma proved below). -/
def output_stepsT (arr : ProofTreeArray) (parents : List Nat) (explicit : Bool) :
    Nat → List (Nat × Option (StatementAddress × Nat)) → TEnv → TEnv
  | 0, _, env => env
  | fuel + 1, todo, env =>
    todo.foldl
      (fun env p =>
        if env.backrefs.getD p.1 0 = 0 then
          let tree := arr.trees.getD p.1 default
          let env1 := output_stepsT arr parents explicit fuel (rpnKids explicit tree) env
          if 1 < parents.getD p.1 0 ∧ tree.children ≠ [] then
            ⟨env1.out ++ [(p.1, RPNStep.Normal (env1.count + 1) tree.address p.2)],
             env1.backrefs.set p.1 (env1.count + 1), env1.count + 1⟩
          else
            ⟨env1.out ++ [(p.1, RPNStep.Normal 0 tree.address p.2)], env1.backrefs, env1.count⟩
        else
          ⟨env.out ++ [(p.1, RPNStep.Backref (env.backrefs.getD p.1 0) p.2)],
           env.backrefs, env.count⟩)
      env

/-- Node-tagged run of `to_rpn` over the whole array. -/
def ProofTreeArray.to_rpnT (self : ProofTreeArray) (parents : List Nat)
    (explicit : Bool) : TEnv :=
  output_stepsT self parents explicit (self.trees.length + 1) [(self.qed, none)]
    ⟨[], List.replicate self.trees.length 0, 0⟩

/-- Projection of the node-tagged environment onto the source environment. -/
def projT (env : TEnv) : RpnEnv :=
  ⟨env.out.map Prod.snd, env.backrefs, env.count⟩

/-- `Iterator::next for NormalIter` (proof.rs).  The stack is kept top-first (the
Rust `Vec` keeps the top last).  The fuel bounds the inner descend-to-leaf loop;
`none` means fuel exhaustion (never happens on well-formed arrays, proved below),
`some none` is the iterator's `None`, and `some (some (step, stack))` yields a step
together with the successor state. -/
def nextStep (arr : ProofTreeArray) (explicit : Bool) :
    Nat → List (Nat × Nat) → Option (Option (RPNStep × List (Nat × Nat)))
  | 0, _ => none
  | fuel + 1, stack =>
    match stack with
    | [] => some none
    | (ix, child) :: rest =>
      match (childrenOf arr ix).get? child with
      | some hix => nextStep arr explicit fuel ((hix, 0) :: (ix, child) :: rest)
      | none =>
        match rest with
        | [] => some (some (RPNStep.Normal 0 (addrOf arr ix) none, []))
        | (lix, i) :: rr =>
          some (some (RPNStep.Normal 0 (addrOf arr ix)
            (if explicit then some (addrOf arr lix, i) else none), (lix, i + 1) :: rr))

/-- Repeatedly calling `nextStep`, collecting at most `n` yielded steps.  `some L`
means the iterator yielded `L` and then reported `None` (when the budget `n` is not
exhausted first); `none` means a call ran out of inner fuel or the budget ended
mid-stream. -/
def iterSteps (arr : ProofTreeArray) (explicit : Bool) (innerFuel : Nat) :
    Nat → List (Nat × Nat) → Option (List RPNStep)
  | 0, stack =>
    match nextStep arr explicit innerFuel stack with
    | some none => some []
    | _ => none
  | n + 1, stack =>
    match nextStep arr explicit innerFuel stack with
    | some none => some []
    | some (some (st, stack2)) => (iterSteps arr explicit innerFuel n stack2).map (st :: ·)
    | none => none

/-- The initial stack of `ProofTreeArray::normal_iter` (proof.rs). -/
def normalIterStack (self : ProofTreeArray) : List (Nat × Nat) :=
  [(self.qed, 0)]

/-- Reference definition: the address sequence of the fully unfolded subtree below a
node, in post order, with fuel (for a well-formed array, `ix + 1` fuel is exact). -/
def flattenF (arr : ProofTreeArray) : Nat → Nat → List StatementAddress
  | 0, _ => []
  | fuel + 1, ix => ((childrenOf arr ix).map (flattenF arr fuel)).flatten ++ [addrOf arr ix]

/-- Post-order address sequence of the fully unfolded subtree rooted at `ix`. -/
def flatten (arr : ProofTreeArray) (ix : Nat) : List StatementAddress :=
  flattenF arr (ix + 1) ix

/-- Reference definition: the node count of the fully unfolded subtree below a node
(repeated subtrees counted once per occurrence), with fuel. -/
def treeSizeF (arr : ProofTreeArray) : Nat → Nat → Nat
  | 0, _ => 0
  | fuel + 1, ix => ((childrenOf arr ix).map (treeSizeF arr fuel)).sum + 1

/-- Node count of the fully unfolded subtree rooted at `ix`. -/
def treeSize (arr : ProofTreeArray) (ix : Nat) : Nat :=
  treeSizeF arr (ix + 1) ix

/-- Remaining output of the top stack entry of `NormalIter`: the unfolded subtrees of
the children not yet descended into, then the node itself. -/
def remTop (arr : ProofTreeArray) : Nat × Nat → List StatementAddress
  | (i, c) => (((childrenOf arr i).drop c).map (flatten arr)).flatten ++ [addrOf arr i]

/-- Remaining output of a non-top stack entry of `NormalIter`: its child at the
current position is being handled higher up the stack, so it contributes the
unfolded subtrees of the children after that position, then the node itself. -/
def remRest (arr : ProofTreeArray) : Nat × Nat → List StatementAddress
  | (i, c) => (((childrenOf arr i).drop (c + 1)).map (flatten arr)).flatten ++ [addrOf arr i]

/-- The full remaining output of a `NormalIter` stack. -/
def stackRem (arr : ProofTreeArray) : List (Nat × Nat) → List StatementAddress
  | [] => []
  | top :: rest => remTop arr top ++ (rest.map (remRest arr)).flatten

/-- Reachability from the QED node in exactly `k` parent-to-child edges. -/
inductive ReachIn (arr : ProofTreeArray) : Nat → Nat → Prop where
  | qed : ReachIn arr 0 arr.qed
  | child {k i c} : ReachIn arr k i → c ∈ childrenOf arr i → ReachIn arr (k + 1) c

/-- Reachability from the QED node. -/
def Reaches (arr : ProofTreeArray) (i : Nat) : Prop :=
  ∃ k, ReachIn arr k i

/-- The sequence of nonzero forward-reference numbers of an output, in order. -/
def fwdrefsOf (l : List RPNStep) : List Nat :=
  l.filterMap fun s =>
    match s with
    | RPNStep.Normal f _ _ => if f = 0 then none else some f
    | RPNStep.Backref _ _ => none

/-- Backreference soundness of an output sequence: every backreference target is the
forward-reference number of an earlier normal step. -/
def BackrefSound (l : List RPNStep) : Prop :=
  ∀ k n h, l.get? k = some (RPNStep.Backref n h) →
    ∃ j, j < k ∧ ∃ a h2, l.get? j = some (RPNStep.Normal n a h2)

/-- The address carried by a step (`none` for a backreference). -/
def stepAddr : RPNStep → Option StatementAddress
  | RPNStep.Normal _ a _ => some a
  | RPNStep.Backref _ _ => none

/-- The condition under which `to_rpn` assigns a forward-reference number to a node:
more than one incoming reference and a non-empty child list. -/
def RCond (arr : ProofTreeArray) (parents : List Nat) (i : Nat) : Prop :=
  1 < parents.getD i 0 ∧ childrenOf arr i ≠ []

/-- Whether a step is a normal (full-visit) step. -/
def isNormalStep : RPNStep → Bool
  | RPNStep.Normal _ _ _ => true
  | RPNStep.Backref _ _ => false

/-- Number of normal (full-visit) entries for node `i` in a node-tagged output. -/
def countNormal (i : Nat) (l : List (Nat × RPNStep)) : Nat :=
  l.countP fun p => p.1 == i && isNormalStep p.2

/-- The multiset of nodes of the normal (full-visit) entries of a node-tagged output. -/
def normalNodes (l : List (Nat × RPNStep)) : Multiset Nat :=
  ↑(l.filterMap fun p =>
    match p.2 with
    | RPNStep.Normal _ _ _ => some p.1
    | RPNStep.Backref _ _ => none)

/-- The visit-count identity relating a node-tagged output segment to the work list
that produced it: the visited nodes are the work-list heads plus one visit per child
slot of every full (normal) visit in the segment. -/
def VCeq (arr : ProofTreeArray) (S : List (Nat × RPNStep))
    (todo : List (Nat × Option (StatementAddress × Nat))) : Prop :=
  (↑(S.map Prod.fst) : Multiset Nat) =
    (↑(todo.map Prod.fst) : Multiset Nat) +
      (normalNodes S).bind fun j => (↑(childrenOf arr j) : Multiset Nat)

/-- The invariant bundle maintained by the node-tagged traversal `output_stepsT`:
lengths, the meaning of a recorded backreference number, the order of the emitted
forward references, backreference soundness of the output so far, surjectivity of
the assigned numbers, the shape of every emitted entry, and uniqueness of the
normal entry of every node eligible for a backreference number. -/
structure TInv (arr : ProofTreeArray) (parents : List Nat) (env : TEnv) : Prop where
  blen : env.backrefs.length = arr.trees.length
  bcount : ∀ i, env.backrefs.getD i 0 ≤ env.count
  bchar : ∀ i, env.backrefs.getD i 0 ≠ 0 →
    RCond arr parents i ∧ Reaches arr i ∧
      ∃ h, (i, RPNStep.Normal (env.backrefs.getD i 0) (addrOf arr i) h) ∈ env.out
  fwd : fwdrefsOf (env.out.map Prod.snd) = List.range' 1 env.count
  bsound : BackrefSound (env.out.map Prod.snd)
  bsurj : ∀ n, 1 ≤ n → n ≤ env.count →
    ∃ i, i < arr.trees.length ∧ env.backrefs.getD i 0 = n
  entsh : ∀ p ∈ env.out, p.1 < arr.trees.length ∧ Reaches arr p.1 ∧
    ((∃ f h, p.2 = RPNStep.Normal f (addrOf arr p.1) h ∧
        (f ≠ 0 → env.backrefs.getD p.1 0 = f)) ∨
      (∃ n h, p.2 = RPNStep.Backref n h ∧ n ≠ 0 ∧ env.backrefs.getD p.1 0 = n))
  normalOnce : ∀ i, RCond arr parents i →
    countNormal i env.out = if env.backrefs.getD i 0 = 0 then 0 else 1
  bneNormal : ∀ p ∈ env.out, (∃ n h, p.2 = RPNStep.Backref n h) →
    ∃ f h, (p.1, RPNStep.Normal f (addrOf arr p.1) h) ∈ env.out

/-- Claim C4 as stated: for every well-formed graph and `count_parents` input,
the output of `to_rpn` is backreference-sound, the forward-reference numbers are
assigned from 1 in increasing order of first use, and every assigned number is
used by at least one backreference step. -/
def C4Claim : Prop :=
  ∀ arr : ProofTreeArray, WFC arr → arr.qed < arr.trees.length →
    ∀ parents, arr.count_parents = some parents → ∀ explicit,
      BackrefSound (arr.to_rpn parents explicit) ∧
      fwdrefsOf (arr.to_rpn parents explicit) =
        List.range' 1 (arr.to_rpnEnv parents explicit).count ∧
      (∀ n, 1 ≤ n → n ≤ (arr.to_rpnEnv parents explicit).count →
        ∃ k h, (arr.to_rpn parents explicit).get? k = some (RPNStep.Backref n h))

/-- The body of the `todo.foldl` in `output_stepsT` applied to one work item: the
processing of a single step of `output_step` (proof.rs), node-tagged. -/
def stepT (arr : ProofTreeArray) (parents : List Nat) (explicit : Bool)
    (fuel s : Nat) (hyp : Option (StatementAddress × Nat)) (env : TEnv) : TEnv :=
  if env.backrefs.getD s 0 = 0 then
    let tree := arr.trees.getD s default
    let env1 := output_stepsT arr parents explicit fuel (rpnKids explicit tree) env
    if 1 < parents.getD s 0 ∧ tree.children ≠ [] then
      ⟨env1.out ++ [(s, RPNStep.Normal (env1.count + 1) tree.address hyp)],
       env1.backrefs.set s (env1.count + 1), env1.count + 1⟩
    else
      ⟨env1.out ++ [(s, RPNStep.Normal 0 tree.address hyp)], env1.backrefs, env1.count⟩
  else
    ⟨env.out ++ [(s, RPNStep.Backref (env.backrefs.getD s 0) hyp)],
     env.backrefs, env.count⟩

/-- What one (or several composed) traversal steps guarantee relative to the starting
environment: the invariant holds afterwards, the new output is an extension whose
node visit counts satisfy the work-list identity `VCeq`, the counter is monotone,
recorded backreference numbers are never overwritten, and only nodes at or below a
work-list head can have received a number. -/
def StepPost (arr : ProofTreeArray) (parents : List Nat)
    (todo : List (Nat × Option (StatementAddress × Nat))) (env env' : TEnv) : Prop :=
  TInv arr parents env' ∧
  (∃ S, env'.out = env.out ++ S ∧ VCeq arr S todo) ∧
  env.count ≤ env'.count ∧
  (∀ i, env.backrefs.getD i 0 ≠ 0 → env'.backrefs.getD i 0 = env.backrefs.getD i 0) ∧
  (∀ i, env'.backrefs.getD i 0 ≠ env.backrefs.getD i 0 → ∃ p ∈ todo, i ≤ p.1)

/-- The claim C4 counterexample graph: node 1 (one child, two incoming references,
both from the unvisited node 2) is assigned forward-reference number 1, but the
traversal from QED = 1 never returns to it, so no backreference step is emitted. -/
def cexArr : ProofTreeArray :=
  ⟨[], [⟨⟨0⟩, [], 0⟩, ⟨⟨1⟩, [0], 0⟩, ⟨⟨2⟩, [1, 1], 0⟩], none, 1, []⟩

/-- Modelled from the spec (claim C7 wording): the per-byte decoding of a formula
range, with no leading separator, trimming a trailing separator exactly when one was
produced (that is, when the final byte has its high bit set). -/
def specDecodeExpr (bytes : List Nat) : List Nat :=
  let u := bytes.foldl emitByte []
  match bytes.getLast? with
  | some b => if b &&& 0x80 == 0 then u else u.dropLast
  | none => u

/-- The amended decoding that the code actually implements: one leading separator
byte, then the per-byte decoding, with the final byte of the whole string removed. -/
def codeDecodeExpr (bytes : List Nat) : List Nat :=
  (0x20 :: bytes.foldl emitByte []).dropLast

/-- A two-node sharing-free chain used as a witness graph. -/
def exChain2 : ProofTreeArray :=
  ⟨[], [⟨⟨0⟩, [], 0⟩, ⟨⟨1⟩, [0], 0⟩], none, 1, []⟩

/-- The concrete scenario of claim C2: A (leaf), B (leaf), C = apply(A,B),
D = apply(C,C), QED = D. -/
def exArr : ProofTreeArray :=
  ⟨[], [⟨⟨0⟩, [], 0⟩, ⟨⟨1⟩, [], 0⟩, ⟨⟨2⟩, [0, 1], 0⟩, ⟨⟨3⟩, [2, 2], 0⟩], none, 3, []⟩

/-- A linear chain of `n` nodes: node 0 is a leaf, node `i + 1` has the single child
`i`, and QED is the last node, so node `i` sits at distance `n - 1 - i` from QED. -/
def chainArr (n : Nat) : ProofTreeArray :=
  ⟨[], (List.range n).map fun i => ⟨⟨0⟩, if i = 0 then [] else [i - 1], 0⟩, none, n - 1, []⟩

/-- The distance array reached after the chain's Dijkstra loop has processed the top
`k + 1` nodes: node `i` holds `n - 1 - i` once reached, `65535` (the sentinel)
otherwise. -/
def dchain (n k : Nat) : List Nat :=
  (List.range n).map fun i => if n - 1 - k ≤ i then n - 1 - i else 65535

/-- Claim C3 as stated: for every well-formed graph, after `calc_indent` every node
reachable from QED holds exactly its breadth-first distance from QED (the least
number of parent-to-child edges on a path), and every unreachable node holds the
sentinel `65535`. -/
def C3Claim : Prop :=
  ∀ arr : ProofTreeArray, WFC arr → arr.qed < arr.trees.length →
    ∀ arr2, arr.calc_indent = some arr2 →
      (∀ i k, ReachIn arr k i → (∀ m, ReachIn arr m i → k ≤ m) →
        arr2.indent.getD i 65535 = k) ∧
      (∀ i < arr.trees.length, ¬Reaches arr i → arr2.indent.getD i 65535 = 65535)

/-! ### Basic lemmas about the builder -/

theorem childHashes_isSome_iff (trees : List ProofTree) (ch : List Nat) :
    (childHashes trees ch).isSome ↔ ∀ c ∈ ch, c < trees.length := by
  induction ch with
  | nil => simp [childHashes]
  | cons ix rest ih =>
    cases h1 : trees.get? ix with
    | none =>
      have hlen := List.get?_eq_none.mp h1
      rw [childHashes, h1]
      simp only [Option.none_bind, Option.isSome_none, Bool.false_eq_true, false_iff]
      intro hall
      exact absurd (hall ix (by simp)) (by omega)
    | some t =>
      have hlen : ix < trees.length := by
        by_contra hcon
        rw [List.get?_eq_none.mpr (by omega)] at h1
        exact Option.noConfusion h1
      simp [childHashes, h1, ih, hlen]

theorem childHashes_append (trees more : List ProofTree) (ch : List Nat)
    (h : ∀ c ∈ ch, c < trees.length) :
    childHashes (trees ++ more) ch = childHashes trees ch := by
  induction ch with
  | nil => rfl
  | cons ix rest ih =>
    have hx : ix < trees.length := h ix (by simp)
    rw [childHashes, childHashes, List.get?_append hx, ih (fun c hc => h c (by simp [hc]))]

theorem build_idem (mkHash : StatementAddress → List Nat → Nat) (st : ProofTreeArray)
    (addr : StatementAddress) (ch pool : List Nat) (a b : Nat) (i1 : Nat)
    (st1 : ProofTreeArray) (h : st.build mkHash addr ch pool a b = some (i1, st1)) :
    st1.build mkHash addr ch pool a b = some (i1, st1) ∧
      st1.trees.length ≤ st.trees.length + 1 := by
  cases hch : childHashes st.trees ch with
  | none =>
    rw [ProofTreeArray.build, ProofTree.new, hch] at h
    exact absurd h (by simp)
  | some hs =>
    have hchlt : ∀ c ∈ ch, c < st.trees.length :=
      (childHashes_isSome_iff st.trees ch).mp (by rw [hch]; rfl)
    cases hidx : st.index ⟨addr, ch, mkHash addr hs⟩ with
    | some ix =>
      have h2 : i1 = ix ∧ st1 = st := by
        rw [ProofTreeArray.build, ProofTree.new] at h
        simp only [hch, Option.map_some', Option.some_bind, hidx, Option.some_inj,
          Prod.mk.injEq] at h
        exact ⟨h.1.symm, h.2.symm⟩
      obtain ⟨hi1, hst1⟩ := h2
      subst hi1; subst hst1
      constructor
      · rw [ProofTreeArray.build, ProofTree.new]
        simp only [hch, Option.map_some', Option.some_bind, hidx]
      · omega
    | none =>
      have key : i1 = st.trees.length ∧
          st1.map = (mkHash addr hs, st.trees.length) :: st.map ∧
          st1.trees = st.trees ++ [⟨addr, ch, mkHash addr hs⟩] := by
        rw [ProofTreeArray.build, ProofTree.new] at h
        simp only [hch, Option.map_some', Option.some_bind, hidx] at h
        cases hex : st.exprs with
        | none =>
          simp only [hex, Option.some_inj, Prod.mk.injEq] at h
          obtain ⟨hi1, hst1⟩ := h
          exact ⟨hi1.symm, by rw [← hst1], by rw [← hst1]⟩
        | some exprs =>
          simp only [hex] at h
          by_cases hcond : a ≤ b ∧ b ≤ pool.length
          · rw [if_pos hcond] at h
            simp only [Option.some_inj, Prod.mk.injEq] at h
            obtain ⟨hi1, hst1⟩ := h
            exact ⟨hi1.symm, by rw [← hst1], by rw [← hst1]⟩
          · rw [if_neg hcond] at h
            exact absurd h (by simp)
      obtain ⟨hi1, hmap, htrees⟩ := key
      have hch2 : childHashes st1.trees ch = some hs := by
        rw [htrees, childHashes_append st.trees _ ch hchlt, hch]
      have hidx2 : st1.index ⟨addr, ch, mkHash addr hs⟩ = some st.trees.length := by
        rw [ProofTreeArray.index, hmap, mapGet, List.find?_cons_of_pos _ (by simp)]
        rfl
      constructor
      · rw [ProofTreeArray.build, ProofTree.new]
        simp only [hch2, Option.map_some', Option.some_bind, hidx2, hi1]
      · rw [htrees]
        simp

/-- C1: insert (`ProofBuilder::build`) is idempotent under deduplication: a second
call with the same address, children and formula source returns the same index and
leaves the array (all fields) unchanged, and the node count grows by at most one
across the two calls. -/
theorem c1_insert_idempotent (mkHash : StatementAddress → List Nat → Nat)
    (st : ProofTreeArray) (addr : StatementAddress) (ch pool : List Nat) (a b : Nat)
    (i1 : Nat) (st1 : ProofTreeArray)
    (h : st.build mkHash addr ch pool a b = some (i1, st1)) :
    st.build mkHash addr ch pool a b = some (i1, st1) ∧
      st1.build mkHash addr ch pool a b = some (i1, st1) ∧
      st1.trees.length ≤ st.trees.length + 1 :=
  ⟨h, (build_idem mkHash st addr ch pool a b i1 st1 h).1,
    (build_idem mkHash st addr ch pool a b i1 st1 h).2⟩

/-- Witness for C1 at a concrete input: inserting into the empty array succeeds, and
the second insert returns the same index and the same array. -/
theorem c1_witness :
    (ProofTreeArray.new true).build (fun _ _ => 0) ⟨5⟩ [] [] 0 0 =
        some (0, ⟨[(0, 0)], [⟨⟨5⟩, [], 0⟩], some [[]], 0, []⟩) ∧
      (ProofTreeArray.mk [(0, 0)] [⟨⟨5⟩, [], 0⟩] (some [[]]) 0 []).build
          (fun _ _ => 0) ⟨5⟩ [] [] 0 0 =
        some (0, ⟨[(0, 0)], [⟨⟨5⟩, [], 0⟩], some [[]], 0, []⟩) ∧
      (ProofTreeArray.mk [(0, 0)] [⟨⟨5⟩, [], 0⟩] (some [[]]) 0 []).trees.length ≤
        (ProofTreeArray.new true).trees.length + 1 :=
  c1_insert_idempotent (fun _ _ => 0) (ProofTreeArray.new true) ⟨5⟩ [] [] 0 0 0
    ⟨[(0, 0)], [⟨⟨5⟩, [], 0⟩], some [[]], 0, []⟩ (by decide)

/-! ### Expression decoding -/

theorem foldl_emitByte_init (l : List Nat) :
    ∀ acc : List Nat, l.foldl emitByte acc = acc ++ l.foldl emitByte [] := by
  induction l with
  | nil => intro acc; simp
  | cons c rest ih =>
    intro acc
    rw [List.foldl_cons, List.foldl_cons, ih (emitByte acc c), ih (emitByte [] c)]
    have : emitByte acc c = acc ++ emitByte [] c := by
      rw [emitByte, emitByte]
      by_cases hc : c &&& 0x80 == 0 <;> simp [hc]
    rw [this, List.append_assoc]

theorem buildExpr_eq_codeDecode (bytes : List Nat) :
    buildExpr bytes = codeDecodeExpr bytes := by
  rw [buildExpr, codeDecodeExpr, foldl_emitByte_init]
  rfl

/-- C7 counterexample: on the pool `[65]` (one byte with the high bit clear) the
cached formula is `[32]` (the leading separator the code inserts, with the verbatim
byte popped off the end), not the claimed decoding `[65]`. -/
theorem c7_counterexample :
    ((ProofTreeArray.new true).build (fun _ _ => 0) ⟨0⟩ [] [65] 0 1).map
        (fun p => p.2.exprs) = some (some [[32]]) ∧
      specDecodeExpr [65] = [65] ∧ ([32] : List Nat) ≠ [65] := by
  decide

/-- C7 as amended: when `build` inserts a new node with formula caching enabled, the
cached formula equals one separator byte followed by the per-byte decoding of the
pool range (high-bit bytes emitted with the bit cleared plus a separator, other
bytes verbatim), with the final byte of that string removed. -/
theorem c7_expr_decoding (mkHash : StatementAddress → List Nat → Nat)
    (st : ProofTreeArray) (addr : StatementAddress) (ch pool : List Nat) (a b : Nat)
    (i1 : Nat) (st1 : ProofTreeArray) (es : List (List Nat))
    (hex : st.exprs = some es)
    (h : st.build mkHash addr ch pool a b = some (i1, st1))
    (hnew : st.trees.length < st1.trees.length) :
    st1.exprs = some (es ++ [codeDecodeExpr ((pool.drop a).take (b - a))]) := by
  cases hch : childHashes st.trees ch with
  | none =>
    rw [ProofTreeArray.build, ProofTree.new, hch] at h
    exact absurd h (by simp)
  | some hs =>
    cases hidx : st.index ⟨addr, ch, mkHash addr hs⟩ with
    | some ix =>
      rw [ProofTreeArray.build, ProofTree.new] at h
      simp only [hch, Option.map_some', Option.some_bind, hidx, Option.some_inj,
        Prod.mk.injEq] at h
      rw [← h.2] at hnew
      omega
    | none =>
      rw [ProofTreeArray.build, ProofTree.new] at h
      simp only [hch, Option.map_some', Option.some_bind, hidx, hex] at h
      by_cases hcond : a ≤ b ∧ b ≤ pool.length
      · rw [if_pos hcond] at h
        simp only [Option.some_inj, Prod.mk.injEq] at h
        rw [← h.2, buildExpr_eq_codeDecode]
      · rw [if_neg hcond] at h
        exact absurd h (by simp)

/-- Witness for C7's amended decoding rule at a concrete input: inserting a node
with pool `[193]` (one high-bit byte) caches `[32, 65]`, the leading separator plus
the cleared byte, with the trailing separator removed. -/
theorem c7_witness :
    (ProofTreeArray.new true).exprs = some [] ∧
      (ProofTreeArray.new true).build (fun _ _ => 0) ⟨0⟩ [] [193] 0 1 =
        some (0, ⟨[(0, 0)], [⟨⟨0⟩, [], 0⟩], some [[32, 65]], 0, []⟩) ∧
      (ProofTreeArray.new true).trees.length <
        (ProofTreeArray.mk [(0, 0)] [⟨⟨0⟩, [], 0⟩] (some [[32, 65]]) 0 []).trees.length ∧
      (ProofTreeArray.mk [(0, 0)] [⟨⟨0⟩, [], 0⟩] (some [[32, 65]]) 0 []).exprs =
        some ([] ++ [codeDecodeExpr ((([193] : List Nat).drop 0).take (1 - 0))]) :=
  ⟨by decide, by decide, by decide,
    c7_expr_decoding (fun _ _ => 0) (ProofTreeArray.new true) ⟨0⟩ [] [193] 0 1 0
      ⟨[(0, 0)], [⟨⟨0⟩, [], 0⟩], some [[32, 65]], 0, []⟩ [] (by decide) (by decide)
      (by decide)⟩

/-! ### count_parents -/

theorem getD_replicate_zero (n i : Nat) : (List.replicate n (0 : Nat)).getD i 0 = 0 := by
  rw [List.getD_eq_getElem?_getD]
  cases h : (List.replicate n (0 : Nat))[i]? with
  | none => rfl
  | some v =>
    have := List.getElem?_mem h
    rw [List.eq_of_mem_replicate this] at h ⊢
    rfl

theorem cp_inner (cs : List Nat) :
    ∀ out : List Nat, (∀ c ∈ cs, c < out.length) →
      ∃ out2, cs.foldl
          (fun acc2 hix => acc2.bind fun o =>
            if hix < o.length then some (o.set hix (o.getD hix 0 + 1)) else none)
          (some out) = some out2 ∧
        out2.length = out.length ∧ ∀ i, out2.getD i 0 = out.getD i 0 + cs.count i := by
  induction cs with
  | nil => intro out _; exact ⟨out, rfl, rfl, by simp⟩
  | cons hix rest ih =>
    intro out hlt
    have hx : hix < out.length := hlt hix (by simp)
    obtain ⟨out2, heq, hlen, hval⟩ :=
      ih (out.set hix (out.getD hix 0 + 1)) (by simpa using fun c hc => hlt c (by simp [hc]))
    refine ⟨out2, ?_, by simpa using hlen, ?_⟩
    · rw [List.foldl_cons]
      simpa only [Option.some_bind, if_pos hx] using heq
    · intro i
      rw [hval i]
      by_cases hi : hix = i
      · subst hi
        rw [List.getD_eq_getElem?_getD, List.getElem?_set, if_pos rfl, if_pos hx]
        simp [List.count_cons, List.getD_eq_getElem?_getD]
        omega
      · rw [List.getD_eq_getElem?_getD, List.getElem?_set, if_neg hi]
        simp [List.count_cons, Ne.symm hi, List.getD_eq_getElem?_getD]

theorem cp_outer (ts : List ProofTree) :
    ∀ out : List Nat, (∀ t ∈ ts, ∀ c ∈ t.children, c < out.length) →
      ∃ out2, ts.foldl
          (fun acc tree => acc.bind fun o => tree.children.foldl
            (fun acc2 hix => acc2.bind fun o2 =>
              if hix < o2.length then some (o2.set hix (o2.getD hix 0 + 1)) else none)
            (some o))
          (some out) = some out2 ∧
        out2.length = out.length ∧
        ∀ i, out2.getD i 0 = out.getD i 0 + (ts.map fun t => t.children.count i).sum := by
  induction ts with
  | nil => intro out _; exact ⟨out, rfl, rfl, by simp⟩
  | cons t rest ih =>
    intro out hlt
    obtain ⟨o1, heq1, hlen1, hval1⟩ := cp_inner t.children out (hlt t (by simp))
    obtain ⟨out2, heq2, hlen2, hval2⟩ :=
      ih o1 (fun t2 ht2 c hc => hlen1 ▸ hlt t2 (by simp [ht2]) c hc)
    refine ⟨out2, ?_, by omega, ?_⟩
    · rw [List.foldl_cons]
      simpa only [Option.some_bind, heq1] using heq2
    · intro i
      rw [hval2 i, hval1 i]
      simp [Nat.add_assoc]

theorem count_parents_spec (arr : ProofTreeArray) (h : RangeOK arr) :
    ∃ ps, arr.count_parents = some ps ∧ ps.length = arr.trees.length ∧
      ∀ i, ps.getD i 0 = inDegree arr i := by
  obtain ⟨out2, heq, hlen, hval⟩ :=
    cp_outer arr.trees (List.replicate arr.trees.length 0)
      (by simpa using fun t ht c hc => h t ht c hc)
  refine ⟨out2, heq, by simpa using hlen, fun i => ?_⟩
  rw [hval i, getD_replicate_zero, inDegree]
  omega

/-- C8: `count_parents` computes, for every node index, the number of nodes that
list it among their children (its in-degree), provided all stored child indices are
in range (otherwise the Rust code panics). -/
theorem c8_count_parents (arr : ProofTreeArray) (h : RangeOK arr) :
    ∃ ps, arr.count_parents = some ps ∧ ps.length = arr.trees.length ∧
      ∀ i, ps.getD i 0 = inDegree arr i :=
  count_parents_spec arr h

/-- Witness for C8 at the concrete four-node graph of the spec's scenario. -/
theorem c8_witness :
    RangeOK exArr ∧
      ∃ ps, exArr.count_parents = some ps ∧ ps.length = exArr.trees.length ∧
        ∀ i, ps.getD i 0 = inDegree exArr i :=
  ⟨by decide, c8_count_parents exArr (by decide)⟩

/-! ### The concrete scenario -/

/-- C2: on the graph A (leaf), B (leaf), C = apply(A,B), D = apply(C,C) with
QED = D, `count_parents` returns in-degrees {A:1, B:1, C:2, D:0}; `to_rpn` with
`explicit = false` returns Normal(A), Normal(B), Normal(C, fwdref 1), Backref(1),
Normal(D); and `calc_indent` produces indents {A:2, B:2, C:1, D:0}. -/
theorem c2_concrete_scenario :
    exArr.count_parents = some [1, 1, 2, 0] ∧
      exArr.to_rpn [1, 1, 2, 0] false =
        [RPNStep.Normal 0 ⟨0⟩ none, RPNStep.Normal 0 ⟨1⟩ none, RPNStep.Normal 1 ⟨2⟩ none,
         RPNStep.Backref 1 none, RPNStep.Normal 0 ⟨3⟩ none] ∧
      (exArr.calc_indent).map ProofTreeArray.indent = some [2, 2, 1, 0] := by
  refine ⟨by decide, by decide, by decide⟩

/-! ### calc_indent: helper lemmas -/

theorem getD_eq_of_lt {α : Type} (l : List α) (i : Nat) (d1 d2 : α) (h : i < l.length) :
    l.getD i d1 = l.getD i d2 := by
  rw [List.getD_eq_getElem?_getD, List.getD_eq_getElem?_getD, List.getElem?_eq_getElem h]
  rfl

theorem sum_set_add (l : List Nat) :
    ∀ (i v : Nat), i < l.length → (l.set i v).sum + l.getD i 0 = l.sum + v := by
  induction l with
  | nil => intro i v h; simp at h
  | cons a rest ih =>
    intro i v h
    cases i with
    | zero => simp [List.getD]; omega
    | succ n =>
      have hn : n < rest.length := by simpa using h
      have := ih n v hn
      simp only [List.set, List.sum_cons, List.getD_cons_succ]
      omega

theorem popMin_none_iff (l : List IndentNode) : popMin l = none ↔ l = [] := by
  cases l with
  | nil => simp [popMin]
  | cons x rest =>
    rw [popMin]
    cases h : popMin rest <;> simp [h]
    split <;> simp

theorem popMin_perm (l : List IndentNode) :
    ∀ a r, popMin l = some (a, r) → l.Perm (a :: r) := by
  induction l with
  | nil => intro a r h; simp [popMin] at h
  | cons x rest ih =>
    intro a r h
    rw [popMin] at h
    cases hrest : popMin rest with
    | none =>
      have hnil : rest = [] := (popMin_none_iff rest).mp hrest
      subst hnil
      simp only [popMin] at h
      simp only [Option.some_inj, Prod.mk.injEq] at h
      rw [← h.1, ← h.2]
    | some br =>
      obtain ⟨b, rest2⟩ := br
      simp only [hrest] at h
      by_cases hc : x.cost ≤ b.cost
      · rw [if_pos hc] at h
        simp only [Option.some_inj, Prod.mk.injEq] at h
        rw [← h.1, ← h.2]
      · rw [if_neg hc] at h
        simp only [Option.some_inj, Prod.mk.injEq] at h
        have hp := ih b rest2 hrest
        have h1 : (x :: rest).Perm (x :: b :: rest2) := hp.cons x
        have h2 : (x :: b :: rest2).Perm (b :: x :: rest2) := List.Perm.swap b x rest2
        have h3 := h1.trans h2
        rw [h.1, h.2] at h3
        exact h3

theorem relax_spec (cost : Nat) (children : List Nat) :
    ∀ (heap : List IndentNode) (dist : List Nat), (∀ c ∈ children, c < dist.length) →
      ∃ heap3 dist3, relaxChildren cost children (heap, dist) = some (heap3, dist3) ∧
        dist3.length = dist.length ∧
        (∀ i, dist3.getD i 65535 ≤ dist.getD i 65535) ∧
        (∀ c ∈ children, dist3.getD c 65535 ≤ cost + 1) ∧
        (∀ i, dist3.getD i 65535 ≠ dist.getD i 65535 →
          dist3.getD i 65535 = cost + 1 ∧ cost + 1 < dist.getD i 65535 ∧ i ∈ children ∧
            (⟨i, cost + 1⟩ : IndentNode) ∈ heap3) ∧
        (∀ nd ∈ heap, nd ∈ heap3) ∧
        (∀ nd ∈ heap3, nd ∈ heap ∨ (nd.index ∈ children ∧ nd.cost = cost + 1)) ∧
        heap3.length + dist3.sum ≤ heap.length + dist.sum := by
  induction children with
  | nil =>
    intro heap dist _
    exact ⟨heap, dist, rfl, rfl, fun i => le_refl _, by simp, fun i hi => absurd rfl hi,
      fun nd h => h, fun nd h => Or.inl h, le_refl _⟩
  | cons c rest ih =>
    intro heap dist hlt
    have hc : c < dist.length := hlt c (by simp)
    have hget : dist.get? c = some (dist.getD c 65535) := by
      rw [List.get?_eq_getElem?, List.getElem?_eq_getElem hc, List.getD_eq_getElem?_getD,
        List.getElem?_eq_getElem hc]
      rfl
    have hsplit : relaxChildren cost (c :: rest) (heap, dist) =
        if cost + 1 < dist.getD c 65535 then
          relaxChildren cost rest (⟨c, cost + 1⟩ :: heap, dist.set c (cost + 1))
        else relaxChildren cost rest (heap, dist) := by
      rw [relaxChildren, hget]
    by_cases hrel : cost + 1 < dist.getD c 65535
    · -- relaxation happens: push and set
      obtain ⟨heap3, dist3, heq, hlen, hmono, hchild, hchg, hsub, hsup, hpot⟩ :=
        ih (⟨c, cost + 1⟩ :: heap) (dist.set c (cost + 1))
          (fun c2 hc2 => by rw [List.length_set]; exact hlt c2 (by simp [hc2]))
      have hsetc : (dist.set c (cost + 1)).getD c 65535 = cost + 1 := by
        rw [List.getD_eq_getElem?_getD, List.getElem?_set, if_pos rfl, if_pos hc]; rfl
      have hsetne : ∀ i, i ≠ c → (dist.set c (cost + 1)).getD i 65535 = dist.getD i 65535 := by
        intro i hi
        rw [List.getD_eq_getElem?_getD, List.getElem?_set, if_neg (Ne.symm hi),
          ← List.getD_eq_getElem?_getD]
      refine ⟨heap3, dist3, ?_, by rwa [List.length_set] at hlen, ?_, ?_, ?_, ?_, ?_, ?_⟩
      · rw [hsplit, if_pos hrel]
        exact heq
      · intro i
        by_cases hi : i = c
        · subst hi
          calc dist3.getD i 65535 ≤ (dist.set i (cost + 1)).getD i 65535 := hmono i
            _ = cost + 1 := hsetc
            _ ≤ dist.getD i 65535 := by omega
        · rw [← hsetne i hi]; exact hmono i
      · intro c2 hc2
        rcases List.mem_cons.mp hc2 with h1 | h2
        · subst h1
          calc dist3.getD c2 65535 ≤ (dist.set c2 (cost + 1)).getD c2 65535 := hmono c2
            _ = cost + 1 := hsetc
        · exact hchild c2 h2
      · intro i hne
        by_cases hi : i = c
        · subst hi
          by_cases h3 : dist3.getD i 65535 = (dist.set i (cost + 1)).getD i 65535
          · rw [h3, hsetc]
            refine ⟨rfl, hrel, by simp, hsub _ (by simp)⟩
          · obtain ⟨ha, hb, hcm, hcc⟩ := hchg i h3
            rw [hsetc] at hb
            omega
        · rw [← hsetne i hi] at hne ⊢
          obtain ⟨ha, hb, hcm, hcc⟩ := hchg i hne
          exact ⟨ha, hb, by simp [hcm], hcc⟩
      · intro nd hnd; exact hsub nd (by simp [hnd])
      · intro nd hnd
        rcases hsup nd hnd with h1 | h2
        · rcases List.mem_cons.mp h1 with h3 | h4
          · subst h3; exact Or.inr ⟨by simp, rfl⟩
          · exact Or.inl h4
        · exact Or.inr ⟨by simp [h2.1], h2.2⟩
      · have hss := sum_set_add dist c (cost + 1) hc
        have : dist.getD c 0 = dist.getD c 65535 := getD_eq_of_lt dist c 0 65535 hc
        simp only [List.length_cons] at hpot
        omega
    · -- no relaxation
      obtain ⟨heap3, dist3, heq, hlen, hmono, hchild, hchg, hsub, hsup, hpot⟩ :=
        ih heap dist (fun c2 hc2 => hlt c2 (by simp [hc2]))
      refine ⟨heap3, dist3, ?_, hlen, hmono, ?_, ?_, hsub,
        fun nd hnd => (hsup nd hnd).imp id (fun h => ⟨by simp [h.1], h.2⟩), hpot⟩
      · rw [hsplit, if_neg hrel]
        exact heq
      · intro c2 hc2
        rcases List.mem_cons.mp hc2 with h1 | h2
        · subst h1
          calc dist3.getD c2 65535 ≤ dist.getD c2 65535 := hmono c2
            _ ≤ cost + 1 := by omega
        · exact hchild c2 h2
      · intro i hne
        obtain ⟨ha, hb, hcm, hcc⟩ := hchg i hne
        exact ⟨ha, hb, by simp [hcm], hcc⟩

/-! ### calc_indent: the main loop -/

theorem reachIn_lt (arr : ProofTreeArray)
    (hc : ∀ i < arr.trees.length, ∀ c ∈ childrenOf arr i, c < i)
    (hq : arr.qed < arr.trees.length) :
    ∀ k i, ReachIn arr k i → i < arr.trees.length := by
  intro k i h
  induction h with
  | qed => exact hq
  | child hr hm ih => exact lt_trans (hc _ ih _ hm) ih

theorem dijkstra_spec (arr : ProofTreeArray)
    (hcl : ∀ i < arr.trees.length, ∀ c ∈ childrenOf arr i, c < arr.trees.length) :
    ∀ fuel (heap : List IndentNode) (dist : List Nat),
      heap.length + dist.sum < fuel →
      dist.length = arr.trees.length →
      (∀ i, dist.getD i 65535 ≤ 65535) →
      (∀ i, dist.getD i 65535 = 65535 ∨ ReachIn arr (dist.getD i 65535) i) →
      (∀ nd ∈ heap, nd.index < arr.trees.length ∧
        dist.getD nd.index 65535 ≤ nd.cost ∧ ReachIn arr nd.cost nd.index) →
      (∀ i < arr.trees.length, dist.getD i 65535 < 65535 →
        (∃ nd ∈ heap, nd.index = i ∧ nd.cost = dist.getD i 65535) ∨
        (∀ c ∈ childrenOf arr i, dist.getD c 65535 ≤ dist.getD i 65535 + 1)) →
      ∃ dist2, dijkstra arr fuel heap dist = some dist2 ∧
        dist2.length = arr.trees.length ∧
        (∀ i, dist2.getD i 65535 ≤ dist.getD i 65535) ∧
        (∀ i, dist2.getD i 65535 = 65535 ∨ ReachIn arr (dist2.getD i 65535) i) ∧
        (∀ i < arr.trees.length, dist2.getD i 65535 < 65535 →
          ∀ c ∈ childrenOf arr i, dist2.getD c 65535 ≤ dist2.getD i 65535 + 1) := by
  intro fuel
  induction fuel with
  | zero => intro heap dist hfuel; omega
  | succ fuel ih =>
    intro heap dist hfuel hlen hbound hreach hheap hstab
    cases hpop : popMin heap with
    | none =>
      have hnil : heap = [] := (popMin_none_iff heap).mp hpop
      refine ⟨dist, ?_, hlen, fun i => le_refl _, hreach, ?_⟩
      · rw [dijkstra, hpop]
      · intro i hi hlt c hcm
        rcases hstab i hi hlt with ⟨nd, hnd, _⟩ | h2
        · rw [hnil] at hnd; exact absurd hnd (by simp)
        · exact h2 c hcm
    | some p =>
      obtain ⟨nd, heap2⟩ := p
      have hperm := popMin_perm heap nd heap2 hpop
      have hndin : nd ∈ heap := hperm.mem_iff.mpr (by simp)
      obtain ⟨hndlt, hnddist, hndreach⟩ := hheap nd hndin
      have hndlt2 : nd.index < dist.length := by omega
      have hget : dist.get? nd.index = some (dist.getD nd.index 65535) := by
        rw [List.get?_eq_getElem?, List.getElem?_eq_getElem hndlt2, List.getD_eq_getElem?_getD,
          List.getElem?_eq_getElem hndlt2]
        rfl
      have hlen2 : heap.length = heap2.length + 1 := by
        have := hperm.length_eq
        simpa using this
      have hmemheap2 : ∀ x ∈ heap2, x ∈ heap := by
        intro x hx
        exact hperm.mem_iff.mpr (by simp [hx])
      by_cases hskip : dist.getD nd.index 65535 < nd.cost
      · -- stale entry: skip
        have heval : dijkstra arr (fuel + 1) heap dist = dijkstra arr fuel heap2 dist := by
          rw [dijkstra]
          simp only [hpop, hget]
          rw [if_pos hskip]
        obtain ⟨dist2, heq2, h1, h2, h3, h4⟩ :=
          ih heap2 dist (by omega) hlen hbound hreach
            (fun x hx => hheap x (hmemheap2 x hx))
            (by
              intro i hi hlt
              rcases hstab i hi hlt with ⟨nd2, hnd2, hidx, hcost⟩ | h2
              · left
                have : nd2 ∈ nd :: heap2 := hperm.mem_iff.mp hnd2
                rcases List.mem_cons.mp this with h3 | h3
                · exfalso
                  rw [h3] at hidx hcost
                  rw [hidx] at hskip
                  omega
                · exact ⟨nd2, h3, hidx, hcost⟩
              · exact Or.inr h2)
        exact ⟨dist2, by rw [heval]; exact heq2, h1, h2, h3, h4⟩
      · -- process: relax all children
        have hcost_eq : nd.cost = dist.getD nd.index 65535 := by omega
        obtain ⟨heap3, dist3, hrel, hrlen, hrmono, hrchild, hrchg, hrsub, hrsup, hrpot⟩ :=
          relax_spec nd.cost (childrenOf arr nd.index) heap2 dist
            (fun c hcm => by rw [hlen]; exact hcl nd.index hndlt c hcm)
        have heval : dijkstra arr (fuel + 1) heap dist = dijkstra arr fuel heap3 dist3 := by
          rw [dijkstra]
          simp only [hpop, hget]
          rw [if_neg hskip]
          simp only [hrel]
        have hb3 : ∀ i, dist3.getD i 65535 ≤ 65535 :=
          fun i => le_trans (hrmono i) (hbound i)
        have hr3 : ∀ i, dist3.getD i 65535 = 65535 ∨ ReachIn arr (dist3.getD i 65535) i := by
          intro i
          by_cases hch : dist3.getD i 65535 = dist.getD i 65535
          · rw [hch]; exact hreach i
          · obtain ⟨hv, _, hmem, _⟩ := hrchg i hch
            right
            rw [hv]
            exact ReachIn.child hndreach hmem
        have hheap3 : ∀ x ∈ heap3, x.index < arr.trees.length ∧
            dist3.getD x.index 65535 ≤ x.cost ∧ ReachIn arr x.cost x.index := by
          intro x hx
          rcases hrsup x hx with hold | ⟨hmem, hcost⟩
          · obtain ⟨h1, h2, h3⟩ := hheap x (hmemheap2 x hold)
            exact ⟨h1, le_trans (hrmono x.index) h2, h3⟩
          · refine ⟨hcl nd.index hndlt x.index hmem, ?_, ?_⟩
            · rw [hcost]; exact hrchild x.index hmem
            · rw [hcost]; exact ReachIn.child hndreach hmem
        have hstab3 : ∀ i < arr.trees.length, dist3.getD i 65535 < 65535 →
            (∃ x ∈ heap3, x.index = i ∧ x.cost = dist3.getD i 65535) ∨
            (∀ c ∈ childrenOf arr i, dist3.getD c 65535 ≤ dist3.getD i 65535 + 1) := by
          intro i hi hlt
          by_cases hch : dist3.getD i 65535 = dist.getD i 65535
          · by_cases hnd_i : i = nd.index
            · subst hnd_i
              right
              intro c hcm
              rw [hch, ← hcost_eq]
              exact hrchild c hcm
            · rcases hstab i hi (by omega) with ⟨nd2, hnd2, hidx, hcost2⟩ | h2
              · left
                have hmm : nd2 ∈ nd :: heap2 := hperm.mem_iff.mp hnd2
                rcases List.mem_cons.mp hmm with h3 | h3
                · exact absurd (h3 ▸ hidx) (fun hh => hnd_i hh.symm)
                · exact ⟨nd2, hrsub nd2 h3, hidx, by rw [hcost2, hch]⟩
              · right
                intro c hcm
                calc dist3.getD c 65535 ≤ dist.getD c 65535 := hrmono c
                  _ ≤ dist.getD i 65535 + 1 := h2 c hcm
                  _ = dist3.getD i 65535 + 1 := by rw [hch]
          · obtain ⟨hv, _, _, hentry⟩ := hrchg i hch
            exact Or.inl ⟨⟨i, nd.cost + 1⟩, hentry, rfl, by rw [hv]⟩
        obtain ⟨dist2, heq2, h1, h2, h3, h4⟩ :=
          ih heap3 dist3 (by omega) (hrlen.trans hlen) hb3 hr3 hheap3 hstab3
        refine ⟨dist2, by rw [heval]; exact heq2, h1, ?_, h3, h4⟩
        intro i
        exact le_trans (h2 i) (hrmono i)

theorem fuel_arith (L s : Nat) (h1 : s + 65535 = L * 65535) (h2 : 0 < L) :
    1 + s < 65536 * L + 2 := by omega

theorem calc_indent_spec (arr : ProofTreeArray) (hwf : WFC arr)
    (hq : arr.qed < arr.trees.length) :
    ∃ arr2, arr.calc_indent = some arr2 ∧
      arr2.trees = arr.trees ∧ arr2.qed = arr.qed ∧ arr2.map = arr.map ∧
      arr2.exprs = arr.exprs ∧ arr2.indent.length = arr.trees.length ∧
      (∀ i k, ReachIn arr k i → k ≤ 65534 → arr2.indent.getD i 65535 ≤ k) ∧
      (∀ i, arr2.indent.getD i 65535 = 65535 ∨ ReachIn arr (arr2.indent.getD i 65535) i) ∧
      (∀ i, arr2.indent.getD i 65535 ≤ 65535) := by
  have hcl : ∀ i < arr.trees.length, ∀ c ∈ childrenOf arr i, c < arr.trees.length :=
    fun i hi c hc => lt_trans (hwf i hi c hc) hi
  set n := arr.trees.length with hn
  set init := (List.replicate n (65535 : Nat)).set arr.qed 0 with hinit_def
  have hinit : ∀ i, init.getD i 65535 = if arr.qed = i then 0 else 65535 := by
    intro i
    rw [hinit_def, List.getD_eq_getElem?_getD, List.getElem?_set]
    by_cases h : arr.qed = i
    · rw [if_pos h, if_pos (by rw [List.length_replicate]; omega), if_pos h]
      rfl
    · rw [if_neg h, if_neg h, List.getElem?_replicate]
      by_cases h2 : i < n
      · rw [if_pos h2]; rfl
      · rw [if_neg h2]; rfl
  have hinitlen : init.length = n := by
    rw [hinit_def, List.length_set, List.length_replicate]
  have hsum : init.sum + 65535 = n * 65535 := by
    have h1 := sum_set_add (List.replicate n (65535 : Nat)) arr.qed 0
      (by rw [List.length_replicate]; omega)
    rw [← hinit_def] at h1
    have h2 : (List.replicate n (65535 : Nat)).getD arr.qed 0 = 65535 := by
      rw [List.getD_eq_getElem?_getD, List.getElem?_replicate, if_pos (by omega)]
      rfl
    have h3 : (List.replicate n (65535 : Nat)).sum = n * 65535 := by
      rw [List.sum_replicate, smul_eq_mul, Nat.mul_comm]
    omega
  have hfuel : 1 + init.sum < dijkFuel arr := by
    rw [dijkFuel]
    exact fuel_arith arr.trees.length init.sum hsum (lt_of_le_of_lt (Nat.zero_le _) hq)
  obtain ⟨dist2, heq, hlen2, hmono, hreach2, hstab2⟩ :=
    dijkstra_spec arr hcl (dijkFuel arr) [⟨arr.qed, 0⟩] init
      (by simpa using hfuel)
      (by rw [hinitlen])
      (fun i => by rw [hinit i]; split <;> omega)
      (by
        intro i
        rw [hinit i]
        by_cases h : arr.qed = i
        · rw [if_pos h]; exact Or.inr (h ▸ ReachIn.qed)
        · rw [if_neg h]; exact Or.inl rfl)
      (by
        intro nd hnd
        simp only [List.mem_singleton] at hnd
        subst hnd
        refine ⟨hq, ?_, ReachIn.qed⟩
        rw [hinit, if_pos rfl])
      (by
        intro i hi hlt
        rw [hinit i] at hlt
        by_cases h : arr.qed = i
        · subst h
          exact Or.inl ⟨⟨arr.qed, 0⟩, by simp, rfl, by rw [hinit, if_pos rfl]⟩
        · rw [if_neg h] at hlt; omega)
  refine ⟨{ arr with indent := dist2 }, ?_, rfl, rfl, rfl, rfl, hlen2, ?_, hreach2, ?_⟩
  · rw [ProofTreeArray.calc_indent, if_pos hq, heq]
    rfl
  · show ∀ i k, ReachIn arr k i → k ≤ 65534 → dist2.getD i 65535 ≤ k
    intro i k hreach
    induction hreach with
    | qed =>
      intro _
      have := hmono arr.qed
      rw [hinit, if_pos rfl] at this
      simpa using this
    | @child k j c hr hm ihr =>
      intro hk
      have hj : dist2.getD j 65535 ≤ k := ihr (by omega)
      have hjlt : j < arr.trees.length := reachIn_lt arr hwf hq k j hr
      have := hstab2 j hjlt (by omega) c hm
      omega
  · show ∀ i, dist2.getD i 65535 ≤ 65535
    intro i
    calc dist2.getD i 65535 ≤ init.getD i 65535 := hmono i
      _ ≤ 65535 := by rw [hinit i]; split <;> omega

/-- C3 as amended: for every well-formed graph, `calc_indent` succeeds and gives
every node whose breadth-first distance from QED is below the sentinel exactly that
distance; nodes that are unreachable, or whose distance does not fit below the
`u16` sentinel `65535`, hold the sentinel. -/
theorem c3_indent_bfs (arr : ProofTreeArray) (hwf : WFC arr)
    (hq : arr.qed < arr.trees.length) :
    ∃ arr2, arr.calc_indent = some arr2 ∧ arr2.indent.length = arr.trees.length ∧
      (∀ i k, ReachIn arr k i → k < 65535 → (∀ m, ReachIn arr m i → k ≤ m) →
        arr2.indent.getD i 65535 = k) ∧
      (∀ i, ¬Reaches arr i → arr2.indent.getD i 65535 = 65535) ∧
      (∀ i, (∀ k, ReachIn arr k i → 65535 ≤ k) → arr2.indent.getD i 65535 = 65535) := by
  obtain ⟨arr2, heq, _, _, _, _, hlen, hcomp, hsound, hbound⟩ := calc_indent_spec arr hwf hq
  refine ⟨arr2, heq, hlen, ?_, ?_, ?_⟩
  · intro i k hr hk hmin
    have h1 : arr2.indent.getD i 65535 ≤ k := hcomp i k hr (by omega)
    rcases hsound i with h2 | h2
    · omega
    · have := hmin _ h2
      omega
  · intro i hnr
    rcases hsound i with h2 | h2
    · exact h2
    · exact absurd ⟨_, h2⟩ hnr
  · intro i hk
    rcases hsound i with h2 | h2
    · exact h2
    · have := hk _ h2
      have := hbound i
      omega

/-- Witness for the amended C3 at the concrete four-node graph. -/
theorem c3_witness :
    WFC exArr ∧ exArr.qed < exArr.trees.length ∧
      ∃ arr2, exArr.calc_indent = some arr2 ∧ arr2.indent.length = exArr.trees.length ∧
        (∀ i k, ReachIn exArr k i → k < 65535 → (∀ m, ReachIn exArr m i → k ≤ m) →
          arr2.indent.getD i 65535 = k) ∧
        (∀ i, ¬Reaches exArr i → arr2.indent.getD i 65535 = 65535) ∧
        (∀ i, (∀ k, ReachIn exArr k i → 65535 ≤ k) → arr2.indent.getD i 65535 = 65535) :=
  ⟨by decide, by decide, c3_indent_bfs exArr (by decide) (by decide)⟩

/-! ### The deep chain refuting C3 as stated -/

theorem chain_length (n : Nat) : (chainArr n).trees.length = n := by
  simp [chainArr]

theorem chain_qed (n : Nat) : (chainArr n).qed = n - 1 := rfl

theorem chain_children (n i : Nat) (hi : i < n) :
    childrenOf (chainArr n) i = if i = 0 then [] else [i - 1] := by
  rw [childrenOf, List.getD_eq_getElem?_getD]
  have : (chainArr n).trees[i]? =
      some ⟨⟨0⟩, if i = 0 then [] else [i - 1], 0⟩ := by
    show ((List.range n).map fun j => (⟨⟨0⟩, if j = 0 then [] else [j - 1], 0⟩ : ProofTree))[i]? = _
    rw [List.getElem?_map, List.getElem?_range hi]
    rfl
  rw [this]
  rfl

theorem chain_children_big (n i : Nat) (hi : n ≤ i) : childrenOf (chainArr n) i = [] := by
  rw [childrenOf, List.getD_eq_getElem?_getD]
  have : (chainArr n).trees[i]? = none := by
    rw [List.getElem?_eq_none]
    rw [chain_length]
    exact hi
  rw [this]
  rfl

theorem chain_wfc (n : Nat) : WFC (chainArr n) := by
  intro i hi c hc
  rw [chain_length] at hi
  rw [chain_children n i hi] at hc
  by_cases h0 : i = 0
  · rw [if_pos h0] at hc
    exact absurd hc (by simp)
  · rw [if_neg h0] at hc
    simp only [List.mem_singleton] at hc
    omega

theorem chain_reach_ub (n : Nat) :
    ∀ k i, ReachIn (chainArr n) k i → k ≤ n - 1 ∧ i = n - 1 - k := by
  intro k i h
  induction h with
  | qed =>
    refine ⟨Nat.zero_le _, ?_⟩
    rw [chain_qed]
    omega
  | @child k j c hr hm ih =>
    obtain ⟨hk, hj⟩ := ih
    by_cases hn : j < n
    · rw [chain_children n j hn] at hm
      by_cases h0 : j = 0
      · rw [if_pos h0] at hm
        exact absurd hm (by simp)
      · rw [if_neg h0] at hm
        simp only [List.mem_singleton] at hm
        constructor <;> omega
    · rw [chain_children_big n j (by omega)] at hm
      exact absurd hm (by simp)

theorem chain_reach_ex (n : Nat) :
    ∀ k, k ≤ n - 1 → ReachIn (chainArr n) k (n - 1 - k) := by
  intro k
  induction k with
  | zero =>
    intro _
    have h := @ReachIn.qed (chainArr n)
    rw [chain_qed] at h
    simpa using h
  | succ k ih =>
    intro hk
    have hr := ih (by omega)
    have hne : n - 1 - k ≠ 0 := by omega
    have hlt : n - 1 - k < n := by omega
    have hm : n - 1 - (k + 1) ∈ childrenOf (chainArr n) (n - 1 - k) := by
      rw [chain_children n _ hlt, if_neg hne]
      simp only [List.mem_singleton]
      omega
    exact ReachIn.child hr hm

theorem dchain_length (n k : Nat) : (dchain n k).length = n := by
  simp [dchain]

theorem dchain_getElem? (n m i : Nat) (hi : i < n) :
    (dchain n m)[i]? = some (if n - 1 - m ≤ i then n - 1 - i else 65535) := by
  rw [dchain, List.getElem?_map, List.getElem?_range hi]
  rfl

theorem dchain_getD (n k i : Nat) :
    (dchain n k).getD i 65535 =
      if n - 1 - k ≤ i ∧ i < n then n - 1 - i else 65535 := by
  rw [List.getD_eq_getElem?_getD]
  by_cases hi : i < n
  · rw [dchain_getElem? n k i hi]
    simp only [Option.getD_some]
    by_cases hc : n - 1 - k ≤ i
    · rw [if_pos hc, if_pos ⟨hc, hi⟩]
    · rw [if_neg hc, if_neg (by omega)]
  · rw [List.getElem?_eq_none (by rw [dchain_length]; omega), if_neg (by omega)]
    rfl

theorem dchain_set (n k : Nat) (hk : k + 1 ≤ n - 1) :
    (dchain n k).set (n - 1 - (k + 1)) (k + 1) = dchain n (k + 1) := by
  apply List.ext_getElem?
  intro i
  rw [List.getElem?_set]
  by_cases heq : n - 1 - (k + 1) = i
  · rw [if_pos heq, if_pos (by rw [dchain_length]; omega), dchain_getElem? n (k + 1) i (by omega),
      if_pos (by omega)]
    congr 1
    omega
  · rw [if_neg heq]
    by_cases hi : i < n
    · rw [dchain_getElem? n k i hi, dchain_getElem? n (k + 1) i hi]
      congr 1
      by_cases hc : n - 1 - k ≤ i
      · rw [if_pos hc, if_pos (by omega)]
      · rw [if_neg hc, if_neg (by omega)]
    · rw [List.getElem?_eq_none (by rw [dchain_length]; omega),
        List.getElem?_eq_none (by rw [dchain_length]; omega)]

theorem chain_init (n : Nat) (hn : 1 ≤ n) :
    (List.replicate n (65535 : Nat)).set (n - 1) 0 = dchain n 0 := by
  apply List.ext_getElem?
  intro i
  rw [List.getElem?_set]
  by_cases heq : n - 1 = i
  · rw [if_pos heq, if_pos (by rw [List.length_replicate]; omega),
      dchain_getElem? n 0 i (by omega), if_pos (by omega)]
    congr 1
    omega
  · rw [if_neg heq, List.getElem?_replicate]
    by_cases hi : i < n
    · rw [if_pos hi, dchain_getElem? n 0 i hi, if_neg (by omega)]
    · rw [if_neg hi, List.getElem?_eq_none (by rw [dchain_length]; omega)]

theorem dijkstra_empty (arr : ProofTreeArray) (fuel : Nat) (d : List Nat) :
    dijkstra arr (fuel + 1) [] d = some d := by
  simp [dijkstra, popMin]


theorem popMin_single (x : IndentNode) : popMin [x] = some (x, []) := rfl

theorem relaxChildren_nil (cost : Nat) (hd : List IndentNode × List Nat) :
    relaxChildren cost [] hd = some hd := rfl

theorem relaxChildren_cons (cost hix : Nat) (rest : List Nat) (heap : List IndentNode)
    (dist : List Nat) (d : Nat) (h : dist.get? hix = some d) :
    relaxChildren cost (hix :: rest) (heap, dist) =
      if cost + 1 < d then
        relaxChildren cost rest (⟨hix, cost + 1⟩ :: heap, dist.set hix (cost + 1))
      else relaxChildren cost rest (heap, dist) := by
  rw [relaxChildren, h]

theorem dijkstra_single (arr : ProofTreeArray) (fuel : Nat) (nd : IndentNode)
    (dist : List Nat) (d : Nat) (hget : dist.get? nd.index = some d) (hnd : ¬d < nd.cost)
    (ch : List Nat) (hch : childrenOf arr nd.index = ch)
    (heap3 : List IndentNode) (dist3 : List Nat)
    (hrel : relaxChildren nd.cost ch (([] : List IndentNode), dist) = some (heap3, dist3)) :
    dijkstra arr (fuel + 1) [nd] dist = dijkstra arr fuel heap3 dist3 := by
  rw [dijkstra]
  simp only [popMin_single, hget, hch, hrel]
  rw [if_neg hnd]

theorem chain_step (fuel k : Nat) (hk : k ≤ 65534) :
    dijkstra (chainArr 65537) (fuel + 1) [⟨65536 - k, k⟩] (dchain 65537 k) =
      if k + 1 < 65535 then
        dijkstra (chainArr 65537) fuel [⟨65536 - k - 1, k + 1⟩] (dchain 65537 (k + 1))
      else
        dijkstra (chainArr 65537) fuel [] (dchain 65537 k) := by
  have hmlt : 65536 - k < 65537 := by omega
  have hget : (dchain 65537 k).get? (65536 - k) = some k := by
    rw [List.get?_eq_getElem?, dchain_getElem? 65537 k (65536 - k) hmlt, if_pos (by omega)]
    congr 1
    omega
  have hch : childrenOf (chainArr 65537) (65536 - k) = [65536 - k - 1] := by
    rw [chain_children 65537 (65536 - k) hmlt, if_neg (by omega)]
  have hget2 : (dchain 65537 k).get? (65536 - k - 1) = some 65535 := by
    rw [List.get?_eq_getElem?, dchain_getElem? 65537 k (65536 - k - 1) (by omega),
      if_neg (by omega)]
  have hset : (dchain 65537 k).set (65536 - k - 1) (k + 1) = dchain 65537 (k + 1) := by
    have h := dchain_set 65537 k (by omega)
    have harith : 65537 - 1 - (k + 1) = 65536 - k - 1 := by omega
    rw [harith] at h
    exact h
  by_cases hc : k + 1 < 65535
  · rw [if_pos hc]
    refine dijkstra_single (chainArr 65537) fuel ⟨65536 - k, k⟩ (dchain 65537 k) k hget
      (by exact lt_irrefl k) [65536 - k - 1] hch [⟨65536 - k - 1, k + 1⟩]
      (dchain 65537 (k + 1)) ?_
    rw [relaxChildren_cons k (65536 - k - 1) [] [] (dchain 65537 k) 65535 hget2, if_pos hc,
      hset, relaxChildren_nil]
  · rw [if_neg hc]
    refine dijkstra_single (chainArr 65537) fuel ⟨65536 - k, k⟩ (dchain 65537 k) k hget
      (by exact lt_irrefl k) [65536 - k - 1] hch [] (dchain 65537 k) ?_
    rw [relaxChildren_cons k (65536 - k - 1) [] [] (dchain 65537 k) 65535 hget2, if_neg hc,
      relaxChildren_nil]

theorem chain_loop : ∀ j fuel k, k + j = 65534 →
    dijkstra (chainArr 65537) (fuel + j + 2) [⟨65536 - k, k⟩] (dchain 65537 k) =
      some (dchain 65537 65534) := by
  intro j
  induction j with
  | zero =>
    intro fuel k hk
    have hk' : k = 65534 := by omega
    subst hk'
    have h := chain_step (fuel + 1) 65534 (le_refl _)
    rw [if_neg (by norm_num)] at h
    rw [show fuel + 0 + 2 = (fuel + 1) + 1 from by omega, h, dijkstra_empty]
  | succ j ih =>
    intro fuel k hk
    have hc : k + 1 < 65535 := by omega
    have h := chain_step (fuel + j + 2) k (by omega)
    rw [if_pos hc] at h
    rw [show (65536 : Nat) - k - 1 = 65536 - (k + 1) from by omega] at h
    rw [show fuel + (j + 1) + 2 = (fuel + j + 2) + 1 from by omega, h, ih fuel (k + 1) (by omega)]

theorem chain_calc :
    (chainArr 65537).calc_indent = some { chainArr 65537 with indent := dchain 65537 65534 } := by
  rw [ProofTreeArray.calc_indent, if_pos (by rw [chain_qed, chain_length]; norm_num),
    chain_qed, chain_length, dijkFuel, chain_length,
    chain_init 65537 (by norm_num),
    show (65537 : Nat) - 1 = 65536 - 0 from by norm_num,
    show (65536 : Nat) * 65537 + 2 = (65536 * 65537 - 65534) + 65534 + 2 from by norm_num,
    chain_loop 65534 (65536 * 65537 - 65534) 0 (by norm_num)]
  rfl






theorem indent_with (a : ProofTreeArray) (X : List Nat) :
    ({ a with indent := X } : ProofTreeArray).indent = X := rfl

/-- C3 counterexample: on a well-formed 65537-node chain the node at breadth-first
distance 65536 from QED ends with the saturated/sentinel indent 65535, because the
`u16` distance array cannot represent distances at or beyond the sentinel; so the
claim as stated (indent equals the BFS distance for every reachable node of every
well-formed graph) is false. -/
theorem c3_counterexample : ¬C3Claim := by
  intro hcl
  obtain ⟨h1, _⟩ := hcl (chainArr 65537) (chain_wfc 65537)
    (by rw [chain_qed, chain_length]; norm_num) _ chain_calc
  have hreach : ReachIn (chainArr 65537) 65536 0 := by
    have h := chain_reach_ex 65537 65536 (by norm_num)
    rw [show (65537 : Nat) - 1 - 65536 = 0 from by norm_num] at h
    exact h
  have hmin : ∀ m, ReachIn (chainArr 65537) m 0 → 65536 ≤ m := by
    intro m hm
    obtain ⟨hub, he⟩ := chain_reach_ub 65537 m 0 hm
    omega
  have hval := h1 0 65536 hreach hmin
  rw [indent_with (chainArr 65537) (dchain 65537 65534), dchain_getD,
    if_neg (by omega)] at hval
  exact absurd hval (by norm_num)

/-! ### Structural violations -/

theorem childHashes_none_iff (trees : List ProofTree) (ch : List Nat) :
    childHashes trees ch = none ↔ ∃ c ∈ ch, trees.length ≤ c := by
  rw [← Option.not_isSome_iff_eq_none, childHashes_isSome_iff]
  push_neg
  simp only [not_lt]

/-- C9: structural violations are modelled as panics (`none`), not recoverable
values: `ProofTree::new` (and hence `build`) fails exactly when a child index is
out of range, `calc_indent` fails when `qed` is out of range (in particular on the
empty array, where `qed` defaults to 0), and under the preconditions — all child
indices in range for `new`, well-formedness and a valid `qed` for `calc_indent` —
neither operation panics. -/
theorem c9_structural_panics :
    (∀ (mkHash : StatementAddress → List Nat → Nat) (st : ProofTreeArray)
      (addr : StatementAddress) (ch : List Nat),
      ProofTree.new mkHash st addr ch = none ↔ ∃ c ∈ ch, st.trees.length ≤ c) ∧
    (∀ (mkHash : StatementAddress → List Nat → Nat) (st : ProofTreeArray)
      (addr : StatementAddress) (ch pool : List Nat) (a b : Nat),
      (∃ c ∈ ch, st.trees.length ≤ c) → st.build mkHash addr ch pool a b = none) ∧
    (∀ st : ProofTreeArray, st.trees.length ≤ st.qed → st.calc_indent = none) ∧
    (∀ (mkHash : StatementAddress → List Nat → Nat) (st : ProofTreeArray)
      (addr : StatementAddress) (ch : List Nat),
      (∀ c ∈ ch, c < st.trees.length) → (ProofTree.new mkHash st addr ch).isSome) ∧
    (∀ st : ProofTreeArray, WFC st → st.qed < st.trees.length →
      (st.calc_indent).isSome) := by
  refine ⟨?_, ?_, ?_, ?_, ?_⟩
  · intro mkHash st addr ch
    rw [ProofTree.new, Option.map_eq_none', childHashes_none_iff]
  · intro mkHash st addr ch pool a b h
    rw [ProofTreeArray.build, ProofTree.new, (childHashes_none_iff st.trees ch).mpr h]
    rfl
  · intro st h
    rw [ProofTreeArray.calc_indent, if_neg (by omega)]
  · intro mkHash st addr ch h
    rw [ProofTree.new, Option.isSome_map']
    exact (childHashes_isSome_iff st.trees ch).mpr h
  · intro st hwf hq
    obtain ⟨arr2, heq, _⟩ := calc_indent_spec st hwf hq
    rw [heq]
    rfl

/-- Witness for C9 at concrete inputs: an out-of-range child makes `new` and
`build` fail, `calc_indent` fails on the empty array, and both operations succeed
on the well-formed four-node graph. -/
theorem c9_witness :
    ProofTree.new (fun _ _ => 0) (ProofTreeArray.new true) ⟨0⟩ [5] = none ∧
      (ProofTreeArray.new true).build (fun _ _ => 0) ⟨0⟩ [5] [] 0 0 = none ∧
      (ProofTreeArray.new true).calc_indent = none ∧
      (ProofTree.new (fun _ _ => 0) exArr ⟨0⟩ [0, 1]).isSome ∧
      (exArr.calc_indent).isSome :=
  ⟨(c9_structural_panics.1 (fun _ _ => 0) (ProofTreeArray.new true) ⟨0⟩ [5]).mpr
      ⟨5, by decide, by decide⟩,
    c9_structural_panics.2.1 (fun _ _ => 0) (ProofTreeArray.new true) ⟨0⟩ [5] [] 0 0
      ⟨5, by decide, by decide⟩,
    c9_structural_panics.2.2.1 (ProofTreeArray.new true) (by decide),
    c9_structural_panics.2.2.2.1 (fun _ _ => 0) exArr ⟨0⟩ [0, 1] (by decide),
    c9_structural_panics.2.2.2.2 exArr (by decide) (by decide)⟩

/-! ### The streaming iterator -/

theorem drop_eq_cons_of_get? {α : Type} (l : List α) (n : Nat) (x : α)
    (h : l.get? n = some x) : l.drop n = x :: l.drop (n + 1) := by
  have hn : n < l.length := by
    by_contra hc
    rw [List.get?_eq_none.mpr (by omega)] at h
    exact Option.noConfusion h
  rw [List.drop_eq_getElem_cons hn]
  congr 1
  rw [List.get?_eq_getElem?, List.getElem?_eq_getElem hn] at h
  exact Option.some_inj.mp h

theorem flattenF_eq_flatten (arr : ProofTreeArray) (hwf : WFC arr) :
    ∀ i, i < arr.trees.length → ∀ f, i < f → flattenF arr f i = flatten arr i := by
  intro i
  induction i using Nat.strong_induction_on with
  | _ i ih =>
    intro hi f hf
    obtain ⟨f2, rfl⟩ : ∃ f2, f = f2 + 1 := ⟨f - 1, by omega⟩
    rw [flatten]
    simp only [flattenF]
    congr 1
    congr 1
    apply List.map_congr_left
    intro c hc
    have hci : c < i := hwf i hi c hc
    have hcl : c < arr.trees.length := lt_trans hci hi
    rw [ih c hci hcl f2 (by omega), ih c hci hcl i (by omega)]

theorem flatten_eq (arr : ProofTreeArray) (hwf : WFC arr) (i : Nat)
    (hi : i < arr.trees.length) :
    flatten arr i = ((childrenOf arr i).map (flatten arr)).flatten ++ [addrOf arr i] := by
  rw [flatten]
  simp only [flattenF]
  congr 1
  congr 1
  apply List.map_congr_left
  intro c hc
  have hci : c < i := hwf i hi c hc
  exact flattenF_eq_flatten arr hwf c (lt_trans hci hi) i hci

theorem treeSizeF_eq_treeSize (arr : ProofTreeArray) (hwf : WFC arr) :
    ∀ i, i < arr.trees.length → ∀ f, i < f → treeSizeF arr f i = treeSize arr i := by
  intro i
  induction i using Nat.strong_induction_on with
  | _ i ih =>
    intro hi f hf
    obtain ⟨f2, rfl⟩ : ∃ f2, f = f2 + 1 := ⟨f - 1, by omega⟩
    rw [treeSize]
    simp only [treeSizeF]
    congr 2
    apply List.map_congr_left
    intro c hc
    have hci : c < i := hwf i hi c hc
    have hcl : c < arr.trees.length := lt_trans hci hi
    rw [ih c hci hcl f2 (by omega), ih c hci hcl i (by omega)]

theorem treeSize_eq (arr : ProofTreeArray) (hwf : WFC arr) (i : Nat)
    (hi : i < arr.trees.length) :
    treeSize arr i = ((childrenOf arr i).map (treeSize arr)).sum + 1 := by
  rw [treeSize]
  simp only [treeSizeF]
  congr 2
  apply List.map_congr_left
  intro c hc
  have hci : c < i := hwf i hi c hc
  exact treeSizeF_eq_treeSize arr hwf c (lt_trans hci hi) i hci

theorem flatten_length (arr : ProofTreeArray) (hwf : WFC arr) :
    ∀ i, i < arr.trees.length → (flatten arr i).length = treeSize arr i := by
  intro i
  induction i using Nat.strong_induction_on with
  | _ i ih =>
    intro hi
    rw [flatten_eq arr hwf i hi, treeSize_eq arr hwf i hi]
    rw [List.length_append, List.length_join, List.map_map]
    simp only [List.length_singleton]
    congr 1
    congr 1
    apply List.map_congr_left
    intro c hc
    have hci : c < i := hwf i hi c hc
    exact ih c hci (lt_trans hci hi)

theorem stackRem_ne_nil (arr : ProofTreeArray) (top : Nat × Nat) (rest : List (Nat × Nat)) :
    stackRem arr (top :: rest) ≠ [] := by
  obtain ⟨i, c⟩ := top
  rw [stackRem, remTop]
  simp

theorem nextStep_succ_cons (arr : ProofTreeArray) (explicit : Bool) (fuel ix c : Nat)
    (rest : List (Nat × Nat)) :
    nextStep arr explicit (fuel + 1) ((ix, c) :: rest) =
      match (childrenOf arr ix).get? c with
      | some hix => nextStep arr explicit fuel ((hix, 0) :: (ix, c) :: rest)
      | none =>
        match rest with
        | [] => some (some (RPNStep.Normal 0 (addrOf arr ix) none, []))
        | (lix, i) :: rr =>
          some (some (RPNStep.Normal 0 (addrOf arr ix)
            (if explicit then some (addrOf arr lix, i) else none), (lix, i + 1) :: rr)) := rfl

theorem stackRem_push (arr : ProofTreeArray) (hwf : WFC arr) (ix c hix : Nat)
    (rest : List (Nat × Nat)) (hget : (childrenOf arr ix).get? c = some hix)
    (hixlen : hix < arr.trees.length) :
    stackRem arr ((hix, 0) :: (ix, c) :: rest) = stackRem arr ((ix, c) :: rest) := by
  rw [stackRem, stackRem, List.map_cons, List.flatten_cons]
  rw [remTop, remTop, remRest]
  rw [List.drop_zero, drop_eq_cons_of_get? _ _ _ hget, ← flatten_eq arr hwf hix hixlen]
  rw [List.map_cons, List.flatten_cons]
  simp [List.append_assoc]

theorem stackRem_pop_drained (arr : ProofTreeArray) (ix c : Nat)
    (hget : (childrenOf arr ix).get? c = none) :
    ((childrenOf arr ix).drop c) = [] := by
  rw [List.drop_eq_nil_iff]
  exact List.get?_eq_none.mp hget

theorem nextStep_cons (arr : ProofTreeArray) (hwf : WFC arr) (explicit : Bool) :
    ∀ fuel ix c rest, (∀ p ∈ (ix, c) :: rest, p.1 < arr.trees.length) → ix < fuel →
      ∃ a hyp stack2,
        nextStep arr explicit fuel ((ix, c) :: rest) =
          some (some (RPNStep.Normal 0 a hyp, stack2)) ∧
        (∀ p ∈ stack2, p.1 < arr.trees.length) ∧
        stackRem arr ((ix, c) :: rest) = a :: stackRem arr stack2 ∧
        (explicit = false → hyp = none) := by
  intro fuel
  induction fuel with
  | zero => intro ix c rest _ h; omega
  | succ fuel ih =>
    intro ix c rest hvalid hfuel
    have hixlen : ix < arr.trees.length := hvalid (ix, c) (by simp)
    cases hget : (childrenOf arr ix).get? c with
    | some hix =>
      have hmem : hix ∈ childrenOf arr ix := List.get?_mem hget
      have hixlt : hix < ix := hwf ix hixlen hix hmem
      obtain ⟨a, hyp, stack2, heq, hval2, hrem, hexp⟩ :=
        ih hix 0 ((ix, c) :: rest)
          (by
            intro p hp
            rcases List.mem_cons.mp hp with h1 | h2
            · rw [h1]; exact lt_trans hixlt hixlen
            · exact hvalid p h2)
          (by omega)
      refine ⟨a, hyp, stack2, ?_, hval2, ?_, hexp⟩
      · rw [nextStep_succ_cons, hget]
        exact heq
      · rw [← stackRem_push arr hwf ix c hix rest hget (lt_trans hixlt hixlen)]
        exact hrem
    | none =>
      cases rest with
      | nil =>
        refine ⟨addrOf arr ix, none, [], ?_, by simp, ?_, fun _ => rfl⟩
        · rw [nextStep_succ_cons, hget]
        · rw [stackRem, stackRem, remTop, stackRem_pop_drained arr ix c hget]
          simp
      | cons q rr =>
        obtain ⟨lix, i⟩ := q
        refine ⟨addrOf arr ix, if explicit then some (addrOf arr lix, i) else none,
          (lix, i + 1) :: rr, ?_, ?_, ?_, ?_⟩
        · rw [nextStep_succ_cons, hget]
        · intro p hp
          rcases List.mem_cons.mp hp with h1 | h2
          · rw [h1]; exact hvalid (lix, i) (by simp)
          · exact hvalid p (by simp [h2])
        · rw [stackRem, stackRem, remTop, stackRem_pop_drained arr ix c hget,
            List.map_cons, List.flatten_cons, remTop, remRest]
          simp
        · intro hexp
          rw [hexp]
          rfl

theorem iterSteps_nil (arr : ProofTreeArray) (explicit : Bool) (m : Nat) :
    iterSteps arr explicit (arr.trees.length + 1) m [] = some [] := by
  cases m with
  | zero => rfl
  | succ m => rfl

theorem iterSteps_run (arr : ProofTreeArray) (hwf : WFC arr) (explicit : Bool) :
    ∀ n (s : List (Nat × Nat)) (extra : Nat), (∀ p ∈ s, p.1 < arr.trees.length) →
      (stackRem arr s).length = n →
      ∃ L, iterSteps arr explicit (arr.trees.length + 1) (n + extra) s = some L ∧
        L.length = n ∧
        (explicit = false → L = (stackRem arr s).map fun a => RPNStep.Normal 0 a none) := by
  intro n
  induction n with
  | zero =>
    intro s extra hvalid hlen
    cases s with
    | nil => exact ⟨[], by rw [Nat.zero_add]; exact iterSteps_nil arr explicit extra, rfl,
        fun _ => by rw [stackRem]; rfl⟩
    | cons top rest =>
      exact absurd (List.length_eq_zero.mp hlen) (stackRem_ne_nil arr top rest)
  | succ n ihn =>
    intro s extra hvalid hlen
    cases s with
    | nil => rw [stackRem] at hlen; simp at hlen
    | cons top rest =>
      obtain ⟨ix, c⟩ := top
      obtain ⟨a, hyp, stack2, heq, hval2, hrem, hexp⟩ :=
        nextStep_cons arr hwf explicit (arr.trees.length + 1) ix c rest hvalid
          (by have := hvalid (ix, c) (by simp); omega)
      have hlen2 : (stackRem arr stack2).length = n := by
        rw [hrem] at hlen
        simpa using hlen
      obtain ⟨L2, heq2, hL2len, hL2exp⟩ := ihn stack2 extra hval2 hlen2
      refine ⟨RPNStep.Normal 0 a hyp :: L2, ?_, by simp [hL2len], ?_⟩
      · rw [show n + 1 + extra = (n + extra) + 1 from by omega]
        simp only [iterSteps, heq, heq2, Option.map_some']
      · intro hf
        rw [hrem, List.map_cons, hL2exp hf, hexp hf]

/-- C10: on a well-formed graph the streaming iterator (`NormalIter::next`) is
finite and every call terminates: running it with a step budget equal to the size
of the fully unfolded tree rooted at QED (plus any surplus) succeeds — no call
exhausts the descend loop — yields exactly that many steps, and then reports `None`
(a larger budget yields the same list). -/
theorem c10_iterator_finite (arr : ProofTreeArray) (hwf : WFC arr)
    (hq : arr.qed < arr.trees.length) (explicit : Bool) (extra : Nat) :
    ∃ L, iterSteps arr explicit (arr.trees.length + 1)
        (treeSize arr arr.qed + extra) (normalIterStack arr) = some L ∧
      L.length = treeSize arr arr.qed := by
  have hrem : stackRem arr (normalIterStack arr) = flatten arr arr.qed := by
    rw [normalIterStack, stackRem, remTop, List.drop_zero, ← flatten_eq arr hwf arr.qed hq]
    simp
  obtain ⟨L, heq, hlen, _⟩ :=
    iterSteps_run arr hwf explicit (treeSize arr arr.qed) (normalIterStack arr) extra
      (by
        intro p hp
        rw [normalIterStack, List.mem_singleton] at hp
        rw [hp]
        exact hq)
      (by rw [hrem]; exact flatten_length arr hwf arr.qed hq)
  exact ⟨L, heq, hlen⟩

/-- Witness for C10 at the concrete four-node graph (unfolded size 7). -/
theorem c10_witness :
    WFC exArr ∧ exArr.qed < exArr.trees.length ∧
      ∃ L, iterSteps exArr false (exArr.trees.length + 1)
          (treeSize exArr exArr.qed + 0) (normalIterStack exArr) = some L ∧
        L.length = treeSize exArr exArr.qed :=
  ⟨by decide, by decide, c10_iterator_finite exArr (by decide) (by decide) false 0⟩

/-! ### Compacted/streaming agreement without sharing -/

theorem output_steps_cons (arr : ProofTreeArray) (parents : List Nat) (explicit : Bool)
    (fuel s : Nat) (hyp : Option (StatementAddress × Nat))
    (todo : List (Nat × Option (StatementAddress × Nat))) (env : RpnEnv) :
    output_steps arr parents explicit (fuel + 1) ((s, hyp) :: todo) env =
      output_steps arr parents explicit (fuel + 1) todo
        (if env.backrefs.getD s 0 = 0 then
          if 1 < parents.getD s 0 ∧ (arr.trees.getD s default).children ≠ [] then
            ⟨(output_steps arr parents explicit fuel
                  (rpnKids explicit (arr.trees.getD s default)) env).out ++
                [RPNStep.Normal ((output_steps arr parents explicit fuel
                  (rpnKids explicit (arr.trees.getD s default)) env).count + 1)
                  (arr.trees.getD s default).address hyp],
             (output_steps arr parents explicit fuel
                  (rpnKids explicit (arr.trees.getD s default)) env).backrefs.set s
                ((output_steps arr parents explicit fuel
                  (rpnKids explicit (arr.trees.getD s default)) env).count + 1),
             (output_steps arr parents explicit fuel
                  (rpnKids explicit (arr.trees.getD s default)) env).count + 1⟩
          else
            ⟨(output_steps arr parents explicit fuel
                  (rpnKids explicit (arr.trees.getD s default)) env).out ++
                [RPNStep.Normal 0 (arr.trees.getD s default).address hyp],
             (output_steps arr parents explicit fuel
                  (rpnKids explicit (arr.trees.getD s default)) env).backrefs,
             (output_steps arr parents explicit fuel
                  (rpnKids explicit (arr.trees.getD s default)) env).count⟩
        else
          ⟨env.out ++ [RPNStep.Backref (env.backrefs.getD s 0) hyp],
           env.backrefs, env.count⟩) := rfl

theorem output_steps_nil (arr : ProofTreeArray) (parents : List Nat) (explicit : Bool)
    (fuel : Nat) (env : RpnEnv) :
    output_steps arr parents explicit fuel [] env = env := by
  cases fuel <;> rfl

theorem rpnKids_map_fst (explicit : Bool) (tree : ProofTree) :
    (rpnKids explicit tree).map Prod.fst = tree.children := by
  rw [rpnKids, List.map_map]
  have : (Prod.fst ∘ fun p : Nat × Nat =>
      (p.2, if explicit then some (tree.address, p.1) else none)) = Prod.snd := rfl
  rw [this, List.enum_map_snd]

theorem rpnKids_hyp_none (tree : ProofTree) :
    ∀ p ∈ rpnKids false tree, p.2 = none := by
  intro p hp
  rw [rpnKids] at hp
  obtain ⟨q, _, hq⟩ := List.mem_map.mp hp
  rw [← hq]
  simp

theorem flatsteps_eq (arr : ProofTreeArray) (hwf : WFC arr) (s : Nat)
    (hs : s < arr.trees.length) :
    (flatten arr s).map (fun a => RPNStep.Normal 0 a none) =
      ((childrenOf arr s).map fun c =>
        (flatten arr c).map fun a => RPNStep.Normal 0 a none).flatten ++
        [RPNStep.Normal 0 (addrOf arr s) none] := by
  rw [flatten_eq arr hwf s hs, List.map_append, List.map_flatten, List.map_map]
  rfl

theorem output_steps_nosharing (arr : ProofTreeArray) (parents : List Nat)
    (hwf : WFC arr) (hpar : ∀ i < arr.trees.length, parents.getD i 0 ≤ 1) :
    ∀ fuel (todo : List (Nat × Option (StatementAddress × Nat))) (env : RpnEnv),
      (∀ p ∈ todo, p.1 < arr.trees.length ∧ p.1 < fuel) →
      (∀ p ∈ todo, p.2 = none) →
      (∀ i, env.backrefs.getD i 0 = 0) →
      output_steps arr parents false fuel todo env =
        ⟨env.out ++ ((todo.map Prod.fst).map fun s =>
            (flatten arr s).map fun a => RPNStep.Normal 0 a none).flatten,
          env.backrefs, env.count⟩ := by
  intro fuel
  induction fuel with
  | zero =>
    intro todo env htodo _ _
    cases todo with
    | nil => simp [output_steps_nil]
    | cons p rest => exact absurd (htodo p (by simp)).2 (by omega)
  | succ fuel ihf =>
    intro todo
    induction todo with
    | nil => intro env _ _ _; simp [output_steps_nil]
    | cons p rest iht =>
      intro env htodo hhyp hback
      obtain ⟨s, hyp⟩ := p
      have hs : s < arr.trees.length := (htodo (s, hyp) (by simp)).1
      have hsf : s < fuel + 1 := (htodo (s, hyp) (by simp)).2
      have hhyp0 : hyp = none := hhyp (s, hyp) (by simp)
      rw [output_steps_cons, if_pos (hback s)]
      have htree : (arr.trees.getD s default).children = childrenOf arr s := rfl
      have haddr : (arr.trees.getD s default).address = addrOf arr s := rfl
      have hkids := ihf (rpnKids false (arr.trees.getD s default)) env
        (by
          intro q hq
          have hq1 : q.1 ∈ (rpnKids false (arr.trees.getD s default)).map Prod.fst :=
            List.mem_map_of_mem Prod.fst hq
          rw [rpnKids_map_fst, htree] at hq1
          have := hwf s hs q.1 hq1
          omega)
        (rpnKids_hyp_none _)
        hback
      rw [hkids]
      rw [if_neg (by
        intro hcond
        have := hpar s hs
        omega)]
      rw [iht _
        (fun q hq => htodo q (by simp [hq]))
        (fun q hq => hhyp q (by simp [hq]))
        (by intro i; exact hback i)]
      simp only [RpnEnv.mk.injEq, and_true]
      rw [rpnKids_map_fst, htree, haddr, hhyp0]
      simp only [List.map_cons, List.flatten_cons]
      rw [flatsteps_eq arr hwf s hs]
      simp [List.append_assoc, List.map_map]

/-- C6: on a well-formed graph in which no node has in-degree above one, the
backreference-compacting `to_rpn` (fed `count_parents`) and the streaming
`normal_iter`, both non-explicit, emit the same addresses in the same order
(no backreferences occur at all, so the address sequences agree position by
position). -/
theorem c6_compacted_streaming_agree (arr : ProofTreeArray) (hwf : WFC arr)
    (hq : arr.qed < arr.trees.length) (parents : List Nat)
    (hp : arr.count_parents = some parents) (hdeg : ∀ i, inDegree arr i ≤ 1) :
    ∃ L, iterSteps arr false (arr.trees.length + 1) (treeSize arr arr.qed)
        (normalIterStack arr) = some L ∧
      L.map stepAddr = (arr.to_rpn parents false).map stepAddr := by
  have hpar : ∀ i < arr.trees.length, parents.getD i 0 ≤ 1 := by
    obtain ⟨ps, hps, _, hval⟩ := count_parents_spec arr
      (fun t ht c hc => by
        obtain ⟨i, hi, hit⟩ := List.getElem_of_mem ht
        have : c ∈ childrenOf arr i := by
          rw [childrenOf, List.getD_eq_getElem?_getD, List.getElem?_eq_getElem hi, hit]
          exact hc
        have := hwf i hi c this
        omega)
    rw [hp] at hps
    obtain rfl : parents = ps := Option.some_inj.mp hps
    intro i _
    rw [hval i]
    exact hdeg i
  have hrpn : arr.to_rpn parents false =
      (flatten arr arr.qed).map fun a => RPNStep.Normal 0 a none := by
    rw [ProofTreeArray.to_rpn, ProofTreeArray.to_rpnEnv]
    rw [output_steps_nosharing arr parents hwf hpar (arr.trees.length + 1)
      [(arr.qed, none)] ⟨[], List.replicate arr.trees.length 0, 0⟩
      (by intro p hp2; rw [List.mem_singleton] at hp2; rw [hp2]; exact ⟨hq, by omega⟩)
      (by intro p hp2; rw [List.mem_singleton] at hp2; rw [hp2])
      (by intro i; exact getD_replicate_zero _ _)]
    simp
  have hrem : stackRem arr (normalIterStack arr) = flatten arr arr.qed := by
    rw [normalIterStack, stackRem, remTop, List.drop_zero, ← flatten_eq arr hwf arr.qed hq]
    simp
  obtain ⟨L, heq, hlen, hshape⟩ :=
    iterSteps_run arr hwf false (treeSize arr arr.qed) (normalIterStack arr) 0
      (by
        intro p hp2
        rw [normalIterStack, List.mem_singleton] at hp2
        rw [hp2]
        exact hq)
      (by rw [hrem]; exact flatten_length arr hwf arr.qed hq)
  rw [Nat.add_zero] at heq
  refine ⟨L, heq, ?_⟩
  rw [hshape rfl, hrem, hrpn]

/-- Witness for C6 at a concrete sharing-free graph: a two-node chain. -/
theorem c6_witness :
    WFC exChain2 ∧ exChain2.qed < exChain2.trees.length ∧
      exChain2.count_parents = some [1, 0] ∧ (∀ i, inDegree exChain2 i ≤ 1) ∧
      ∃ L, iterSteps exChain2 false (exChain2.trees.length + 1)
          (treeSize exChain2 exChain2.qed) (normalIterStack exChain2) = some L ∧
        L.map stepAddr = (exChain2.to_rpn [1, 0] false).map stepAddr := by
  have hdeg : ∀ i, inDegree exChain2 i ≤ 1 := by
    intro i
    show ([] : List Nat).count i + (([0] : List Nat).count i + 0) ≤ 1
    have h0 : ([] : List Nat).count i = 0 := List.count_nil i
    have h1 : ([0] : List Nat).count i ≤ 1 := List.count_le_length i [0]
    omega
  exact ⟨by decide, by decide, by decide, hdeg,
    c6_compacted_streaming_agree exChain2 (by decide) (by decide) [1, 0] (by decide) hdeg⟩

/-! ### The node-tagged traversal: support lemmas -/

theorem output_stepsT_nil (arr : ProofTreeArray) (parents : List Nat) (explicit : Bool)
    (fuel : Nat) (env : TEnv) :
    output_stepsT arr parents explicit fuel [] env = env := by
  cases fuel <;> rfl

theorem output_stepsT_cons (arr : ProofTreeArray) (parents : List Nat) (explicit : Bool)
    (fuel s : Nat) (hyp : Option (StatementAddress × Nat))
    (todo : List (Nat × Option (StatementAddress × Nat))) (env : TEnv) :
    output_stepsT arr parents explicit (fuel + 1) ((s, hyp) :: todo) env =
      output_stepsT arr parents explicit (fuel + 1) todo
        (if env.backrefs.getD s 0 = 0 then
          if 1 < parents.getD s 0 ∧ (arr.trees.getD s default).children ≠ [] then
            ⟨(output_stepsT arr parents explicit fuel
                  (rpnKids explicit (arr.trees.getD s default)) env).out ++
                [(s, RPNStep.Normal ((output_stepsT arr parents explicit fuel
                  (rpnKids explicit (arr.trees.getD s default)) env).count + 1)
                  (arr.trees.getD s default).address hyp)],
             (output_stepsT arr parents explicit fuel
                  (rpnKids explicit (arr.trees.getD s default)) env).backrefs.set s
                ((output_stepsT arr parents explicit fuel
                  (rpnKids explicit (arr.trees.getD s default)) env).count + 1),
             (output_stepsT arr parents explicit fuel
                  (rpnKids explicit (arr.trees.getD s default)) env).count + 1⟩
          else
            ⟨(output_stepsT arr parents explicit fuel
                  (rpnKids explicit (arr.trees.getD s default)) env).out ++
                [(s, RPNStep.Normal 0 (arr.trees.getD s default).address hyp)],
             (output_stepsT arr parents explicit fuel
                  (rpnKids explicit (arr.trees.getD s default)) env).backrefs,
             (output_stepsT arr parents explicit fuel
                  (rpnKids explicit (arr.trees.getD s default)) env).count⟩
        else
          ⟨env.out ++ [(s, RPNStep.Backref (env.backrefs.getD s 0) hyp)],
           env.backrefs, env.count⟩) := rfl

theorem projT_output_steps (arr : ProofTreeArray) (parents : List Nat) (explicit : Bool) :
    ∀ fuel todo env,
      output_steps arr parents explicit fuel todo (projT env) =
        projT (output_stepsT arr parents explicit fuel todo env) := by
  intro fuel
  induction fuel with
  | zero =>
    intro todo env
    cases fuel0 : todo <;> rfl
  | succ fuel ihf =>
    intro todo
    induction todo with
    | nil => intro env; rfl
    | cons p rest iht =>
      intro env
      obtain ⟨s, hyp⟩ := p
      rw [output_steps_cons, output_stepsT_cons]
      have hb : (projT env).backrefs = env.backrefs := rfl
      have ho : (projT env).out = env.out.map Prod.snd := rfl
      have hc : (projT env).count = env.count := rfl
      by_cases h0 : env.backrefs.getD s 0 = 0
      · rw [hb] at *
        rw [if_pos h0, if_pos h0]
        have hkids := ihf (rpnKids explicit (arr.trees.getD s default)) env
        by_cases hcond : 1 < parents.getD s 0 ∧ (arr.trees.getD s default).children ≠ []
        · rw [if_pos hcond, if_pos hcond]
          rw [← iht]
          congr 1
          rw [hkids]
          simp [projT]
        · rw [if_neg hcond, if_neg hcond]
          rw [← iht]
          congr 1
          rw [hkids]
          simp [projT]
      · rw [hb, if_neg h0, if_neg h0, ← iht]
        congr 1
        simp [projT]

theorem fwdrefsOf_append (l1 l2 : List RPNStep) :
    fwdrefsOf (l1 ++ l2) = fwdrefsOf l1 ++ fwdrefsOf l2 := by
  rw [fwdrefsOf, fwdrefsOf, fwdrefsOf, List.filterMap_append]

theorem fwdrefsOf_backref (n : Nat) (h : Option (StatementAddress × Nat)) :
    fwdrefsOf [RPNStep.Backref n h] = [] := rfl

theorem fwdrefsOf_normal (f : Nat) (a : StatementAddress) (h : Option (StatementAddress × Nat)) :
    fwdrefsOf [RPNStep.Normal f a h] = if f = 0 then [] else [f] := by
  rw [fwdrefsOf, List.filterMap]
  by_cases hf : f = 0 <;> simp [hf]

theorem backrefSound_append_normal (l : List RPNStep) (f : Nat) (a : StatementAddress)
    (h : Option (StatementAddress × Nat)) (hs : BackrefSound l) :
    BackrefSound (l ++ [RPNStep.Normal f a h]) := by
  intro k n hy hk
  by_cases hkl : k < l.length
  · rw [List.get?_append hkl] at hk
    obtain ⟨j, hj, a2, h2, hget⟩ := hs k n hy hk
    exact ⟨j, hj, a2, h2, by rw [List.get?_append (by omega)]; exact hget⟩
  · rw [List.get?_eq_getElem?] at hk
    by_cases hk2 : k < l.length + 1
    · have hkeq : k = l.length := by omega
      rw [hkeq, List.getElem?_append_right (by omega)] at hk
      simp at hk
    · rw [List.getElem?_eq_none (by simp; omega)] at hk
      exact Option.noConfusion hk

theorem backrefSound_append_backref (l : List RPNStep) (n : Nat)
    (h : Option (StatementAddress × Nat)) (hs : BackrefSound l)
    (hw : ∃ j a h2, l.get? j = some (RPNStep.Normal n a h2)) :
    BackrefSound (l ++ [RPNStep.Backref n h]) := by
  intro k m hy hk
  by_cases hkl : k < l.length
  · rw [List.get?_append hkl] at hk
    obtain ⟨j, hj, a2, h2, hget⟩ := hs k m hy hk
    exact ⟨j, hj, a2, h2, by rw [List.get?_append (by omega)]; exact hget⟩
  · rw [List.get?_eq_getElem?] at hk
    by_cases hk2 : k < l.length + 1
    · have hkeq : k = l.length := by omega
      rw [hkeq, List.getElem?_append_right (by omega)] at hk
      simp at hk
      obtain ⟨j, a2, h2, hget⟩ := hw
      have hjl : j < l.length := by
        by_contra hc
        rw [List.get?_eq_none.mpr (by omega)] at hget
        exact Option.noConfusion hget
      refine ⟨j, by omega, a2, h2, ?_⟩
      rw [List.get?_append hjl, hget, hk.1]
    · rw [List.getElem?_eq_none (by simp; omega)] at hk
      exact Option.noConfusion hk

theorem countNormal_append (i : Nat) (l1 l2 : List (Nat × RPNStep)) :
    countNormal i (l1 ++ l2) = countNormal i l1 + countNormal i l2 := by
  rw [countNormal, countNormal, countNormal, List.countP_append]

theorem countNormal_normal (i s f : Nat) (a : StatementAddress)
    (h : Option (StatementAddress × Nat)) :
    countNormal i [(s, RPNStep.Normal f a h)] = if s = i then 1 else 0 := by
  rw [countNormal, List.countP]
  by_cases hsi : s = i
  · simp [List.countP.go, isNormalStep, hsi]
  · have hb : (s == i) = false := by simp [hsi]
    simp [List.countP.go, isNormalStep, hb, hsi]

theorem countNormal_backref (i s n : Nat) (h : Option (StatementAddress × Nat)) :
    countNormal i [(s, RPNStep.Backref n h)] = 0 := by
  rw [countNormal, List.countP]
  simp [List.countP.go, isNormalStep]

theorem normalNodes_append (l1 l2 : List (Nat × RPNStep)) :
    normalNodes (l1 ++ l2) = normalNodes l1 + normalNodes l2 := by
  rw [normalNodes, normalNodes, normalNodes, List.filterMap_append]
  simp

theorem output_stepsT_cons_stepT (arr : ProofTreeArray) (parents : List Nat)
    (explicit : Bool) (fuel s : Nat) (hyp : Option (StatementAddress × Nat))
    (todo : List (Nat × Option (StatementAddress × Nat))) (env : TEnv) :
    output_stepsT arr parents explicit (fuel + 1) ((s, hyp) :: todo) env =
      output_stepsT arr parents explicit (fuel + 1) todo
        (stepT arr parents explicit fuel s hyp env) := rfl

theorem rpnKids_fst (explicit : Bool) (t : ProofTree) :
    (rpnKids explicit t).map Prod.fst = t.children := by
  rw [rpnKids, List.map_map]
  have : (Prod.fst ∘ fun p : Nat × Nat =>
      ((p.2 : Nat), if explicit then some (t.address, p.1) else none)) = Prod.snd := by
    funext p; rfl
  rw [this, List.enum_map_snd]

theorem getD_set_self (l : List Nat) (i v : Nat) (h : i < l.length) :
    (l.set i v).getD i 0 = v := by
  rw [List.getD_eq_getElem?_getD, List.getElem?_set_self h]
  rfl

theorem getD_set_ne (l : List Nat) (i j v : Nat) (h : j ≠ i) :
    (l.set i v).getD j 0 = l.getD j 0 := by
  rw [List.getD_eq_getElem?_getD, List.getD_eq_getElem?_getD,
    List.getElem?_set_ne (fun he => h he.symm)]

theorem range'_one_concat (n : Nat) :
    List.range' 1 (n + 1) = List.range' 1 n ++ [n + 1] := by
  rw [List.range'_concat]
  simp [Nat.add_comm]

theorem mem_map_fst_of_mem {α β : Type} (l : List (α × β)) (p : α × β) (h : p ∈ l) :
    p.1 ∈ l.map Prod.fst := List.mem_map_of_mem Prod.fst h

theorem mem_normalNodes (l : List (Nat × RPNStep)) (i f : Nat) (a : StatementAddress)
    (h : Option (StatementAddress × Nat)) (hm : (i, RPNStep.Normal f a h) ∈ l) :
    i ∈ normalNodes l := by
  rw [normalNodes, Multiset.mem_coe, List.mem_filterMap]
  exact ⟨(i, RPNStep.Normal f a h), hm, rfl⟩

theorem normalNodes_single_normal (s f : Nat) (a : StatementAddress)
    (h : Option (StatementAddress × Nat)) :
    normalNodes [(s, RPNStep.Normal f a h)] = {s} := rfl

theorem normalNodes_single_backref (s n : Nat) (h : Option (StatementAddress × Nat)) :
    normalNodes [(s, RPNStep.Backref n h)] = 0 := rfl

theorem countNormal_pos_of_mem (l : List (Nat × RPNStep)) (i f : Nat)
    (a : StatementAddress) (h : Option (StatementAddress × Nat))
    (hm : (i, RPNStep.Normal f a h) ∈ l) : 0 < countNormal i l := by
  rw [countNormal, List.countP_pos]
  exact ⟨(i, RPNStep.Normal f a h), hm, by simp [isNormalStep]⟩

theorem vceq_append (arr : ProofTreeArray) (S1 S2 : List (Nat × RPNStep))
    (t1 t2 : List (Nat × Option (StatementAddress × Nat)))
    (h1 : VCeq arr S1 t1) (h2 : VCeq arr S2 t2) :
    VCeq arr (S1 ++ S2) (t1 ++ t2) := by
  rw [VCeq] at *
  rw [List.map_append, List.map_append, normalNodes_append, Multiset.add_bind,
    ← Multiset.coe_add, ← Multiset.coe_add, h1, h2]
  abel

theorem stepPost_refl (arr : ProofTreeArray) (parents : List Nat) (env : TEnv)
    (hinv : TInv arr parents env) : StepPost arr parents [] env env := by
  refine ⟨hinv, ⟨[], by simp, ?_⟩, le_refl _, fun i _ => rfl, fun i hi => absurd rfl hi⟩
  rw [VCeq]
  simp [normalNodes]

theorem stepPost_compose (arr : ProofTreeArray) (parents : List Nat)
    (t1 t2 : List (Nat × Option (StatementAddress × Nat))) (e0 e1 e2 : TEnv)
    (h1 : StepPost arr parents t1 e0 e1) (h2 : StepPost arr parents t2 e1 e2) :
    StepPost arr parents (t1 ++ t2) e0 e2 := by
  obtain ⟨hT1, ⟨S1, hS1, hV1⟩, hc1, hset1, hch1⟩ := h1
  obtain ⟨hT2, ⟨S2, hS2, hV2⟩, hc2, hset2, hch2⟩ := h2
  refine ⟨hT2, ⟨S1 ++ S2, ?_, vceq_append arr S1 S2 t1 t2 hV1 hV2⟩,
    le_trans hc1 hc2, ?_, ?_⟩
  · rw [hS2, hS1, List.append_assoc]
  · intro i hi
    have h1i := hset1 i hi
    have h2i := hset2 i (by rw [h1i]; exact hi)
    rw [h2i, h1i]
  · intro i hi
    by_cases hmid : e1.backrefs.getD i 0 = e0.backrefs.getD i 0
    · obtain ⟨p, hp, hle⟩ := hch2 i (by rw [hmid]; exact hi)
      exact ⟨p, List.mem_append_right t1 hp, hle⟩
    · obtain ⟨p, hp, hle⟩ := hch1 i hmid
      exact ⟨p, List.mem_append_left t2 hp, hle⟩

theorem tinv_init (arr : ProofTreeArray) (parents : List Nat) :
    TInv arr parents ⟨[], List.replicate arr.trees.length 0, 0⟩ := by
  refine ⟨by simp, ?_, ?_, rfl, ?_, ?_, ?_, ?_, ?_⟩
  · intro i; rw [getD_replicate_zero]
  · intro i hi; rw [getD_replicate_zero] at hi; exact absurd rfl hi
  · intro k n h hk
    rw [List.get?_eq_getElem?] at hk
    simp at hk
  · intro n h1 h2
    have h3 : n ≤ 0 := h2
    omega
  · intro p hp; simp at hp
  · intro i _; rw [getD_replicate_zero]; simp [countNormal]
  · intro p hp; simp at hp

theorem stepT_eq (arr : ProofTreeArray) (parents : List Nat) (explicit : Bool)
    (fuel s : Nat) (hyp : Option (StatementAddress × Nat)) (env : TEnv) :
    stepT arr parents explicit fuel s hyp env =
      if env.backrefs.getD s 0 = 0 then
        if 1 < parents.getD s 0 ∧ (arr.trees.getD s default).children ≠ [] then
          ⟨(output_stepsT arr parents explicit fuel
                (rpnKids explicit (arr.trees.getD s default)) env).out ++
              [(s, RPNStep.Normal ((output_stepsT arr parents explicit fuel
                (rpnKids explicit (arr.trees.getD s default)) env).count + 1)
                (arr.trees.getD s default).address hyp)],
           (output_stepsT arr parents explicit fuel
                (rpnKids explicit (arr.trees.getD s default)) env).backrefs.set s
              ((output_stepsT arr parents explicit fuel
                (rpnKids explicit (arr.trees.getD s default)) env).count + 1),
           (output_stepsT arr parents explicit fuel
                (rpnKids explicit (arr.trees.getD s default)) env).count + 1⟩
        else
          ⟨(output_stepsT arr parents explicit fuel
                (rpnKids explicit (arr.trees.getD s default)) env).out ++
              [(s, RPNStep.Normal 0 (arr.trees.getD s default).address hyp)],
           (output_stepsT arr parents explicit fuel
                (rpnKids explicit (arr.trees.getD s default)) env).backrefs,
           (output_stepsT arr parents explicit fuel
                (rpnKids explicit (arr.trees.getD s default)) env).count⟩
      else
        ⟨env.out ++ [(s, RPNStep.Backref (env.backrefs.getD s 0) hyp)],
         env.backrefs, env.count⟩ := rfl

theorem kids_head_mem (arr : ProofTreeArray) (explicit : Bool) (s : Nat)
    (q : Nat × Option (StatementAddress × Nat))
    (hq : q ∈ rpnKids explicit (arr.trees.getD s default)) :
    q.1 ∈ childrenOf arr s := by
  have h := List.mem_map_of_mem Prod.fst hq
  rw [rpnKids_fst] at h
  exact h

theorem vceq_visit (arr : ProofTreeArray) (Sk : List (Nat × RPNStep)) (s f : Nat)
    (a : StatementAddress) (h hyp : Option (StatementAddress × Nat)) (explicit : Bool)
    (hVk : VCeq arr Sk (rpnKids explicit (arr.trees.getD s default))) :
    VCeq arr (Sk ++ [(s, RPNStep.Normal f a h)]) [(s, hyp)] := by
  rw [VCeq] at hVk ⊢
  rw [List.map_append, ← Multiset.coe_add, normalNodes_append, Multiset.add_bind,
    hVk, rpnKids_fst, normalNodes_single_normal, Multiset.singleton_bind]
  have hch : childrenOf arr s = (arr.trees.getD s default).children := rfl
  rw [← hch]
  simp only [List.map_cons, List.map_nil]
  abel

theorem stepT_backref (arr : ProofTreeArray) (parents : List Nat) (s : Nat)
    (hyp : Option (StatementAddress × Nat)) (env : TEnv)
    (hs : s < arr.trees.length) (hr : Reaches arr s)
    (hinv : TInv arr parents env)
    (h0 : env.backrefs.getD s 0 ≠ 0) :
    StepPost arr parents [(s, hyp)] env
      ⟨env.out ++ [(s, RPNStep.Backref (env.backrefs.getD s 0) hyp)],
       env.backrefs, env.count⟩ := by
  obtain ⟨hrc, hre, h2, hm⟩ := hinv.bchar s h0
  refine ⟨?_, ⟨[(s, RPNStep.Backref (env.backrefs.getD s 0) hyp)], rfl, ?_⟩,
    le_refl _, fun i _ => rfl, fun i hi => absurd rfl hi⟩
  · refine ⟨hinv.blen, hinv.bcount, ?_, ?_, ?_, hinv.bsurj, ?_, ?_, ?_⟩
    · intro i hi
      obtain ⟨hrc2, hre2, h3, hm3⟩ := hinv.bchar i hi
      exact ⟨hrc2, hre2, h3, List.mem_append_left _ hm3⟩
    · show fwdrefsOf ((env.out ++ [(s, RPNStep.Backref (env.backrefs.getD s 0) hyp)]).map
        Prod.snd) = List.range' 1 env.count
      rw [List.map_append, fwdrefsOf_append]
      simp only [List.map_cons, List.map_nil]
      rw [fwdrefsOf_backref]
      rw [List.append_nil]
      exact hinv.fwd
    · show BackrefSound ((env.out ++ [(s, RPNStep.Backref (env.backrefs.getD s 0) hyp)]).map
        Prod.snd)
      rw [List.map_append]
      simp only [List.map_cons, List.map_nil]
      apply backrefSound_append_backref _ _ _ hinv.bsound
      obtain ⟨j, hj⟩ := List.get?_of_mem hm
      refine ⟨j, addrOf arr s, h2, ?_⟩
      rw [List.get?_map, hj]
      rfl
    · intro p hp
      rcases List.mem_append.mp hp with hp1 | hp2
      · exact hinv.entsh p hp1
      · have hpe : p = (s, RPNStep.Backref (env.backrefs.getD s 0) hyp) := by
          simpa using hp2
        subst hpe
        exact ⟨hs, hr, Or.inr ⟨env.backrefs.getD s 0, hyp, rfl, h0, rfl⟩⟩
    · intro i hrci
      show countNormal i (env.out ++ [(s, RPNStep.Backref (env.backrefs.getD s 0) hyp)]) = _
      rw [countNormal_append, countNormal_backref, Nat.add_zero]
      exact hinv.normalOnce i hrci
    · intro p hp hb
      rcases List.mem_append.mp hp with hp1 | hp2
      · obtain ⟨f, h3, hm3⟩ := hinv.bneNormal p hp1 hb
        exact ⟨f, h3, List.mem_append_left _ hm3⟩
      · have hpe : p = (s, RPNStep.Backref (env.backrefs.getD s 0) hyp) := by
          simpa using hp2
        subst hpe
        exact ⟨env.backrefs.getD s 0, h2, List.mem_append_left _ hm⟩
  · rw [VCeq, normalNodes_single_backref]
    simp

theorem stepT_normal_false (arr : ProofTreeArray) (parents : List Nat) (explicit : Bool)
    (s : Nat) (hyp : Option (StatementAddress × Nat)) (env env1 : TEnv)
    (hs : s < arr.trees.length) (hr : Reaches arr s)
    (hklow : ∀ c ∈ childrenOf arr s, c < s)
    (hP : StepPost arr parents (rpnKids explicit (arr.trees.getD s default)) env env1)
    (hncond : ¬(1 < parents.getD s 0 ∧ (arr.trees.getD s default).children ≠ [])) :
    StepPost arr parents [(s, hyp)] env
      ⟨env1.out ++ [(s, RPNStep.Normal 0 (arr.trees.getD s default).address hyp)],
       env1.backrefs, env1.count⟩ := by
  obtain ⟨hT1, ⟨Sk, hSk, hVk⟩, hc1, hset1, hch1⟩ := hP
  refine ⟨?_, ⟨Sk ++ [(s, RPNStep.Normal 0 (arr.trees.getD s default).address hyp)],
      by rw [hSk, List.append_assoc],
      vceq_visit arr Sk s 0 _ hyp hyp explicit hVk⟩, hc1, hset1, ?_⟩
  · refine ⟨hT1.blen, hT1.bcount, ?_, ?_, ?_, hT1.bsurj, ?_, ?_, ?_⟩
    · intro i hi
      obtain ⟨hrc2, hre2, h3, hm3⟩ := hT1.bchar i hi
      exact ⟨hrc2, hre2, h3, List.mem_append_left _ hm3⟩
    · show fwdrefsOf ((env1.out ++
        [(s, RPNStep.Normal 0 (arr.trees.getD s default).address hyp)]).map Prod.snd) =
          List.range' 1 env1.count
      rw [List.map_append, fwdrefsOf_append]
      simp only [List.map_cons, List.map_nil]
      rw [fwdrefsOf_normal]
      have h00 : (if (0 : Nat) = 0 then ([] : List Nat) else [0]) = [] := if_pos rfl
      rw [h00, List.append_nil]
      exact hT1.fwd
    · show BackrefSound ((env1.out ++
        [(s, RPNStep.Normal 0 (arr.trees.getD s default).address hyp)]).map Prod.snd)
      rw [List.map_append]
      simp only [List.map_cons, List.map_nil]
      exact backrefSound_append_normal _ _ _ _ hT1.bsound
    · intro p hp
      rcases List.mem_append.mp hp with hp1 | hp2
      · exact hT1.entsh p hp1
      · have hpe : p = (s, RPNStep.Normal 0 (arr.trees.getD s default).address hyp) := by
          simpa using hp2
        subst hpe
        exact ⟨hs, hr, Or.inl ⟨0, hyp, rfl, fun hf => absurd rfl hf⟩⟩
    · intro i hrci
      show countNormal i (env1.out ++
        [(s, RPNStep.Normal 0 (arr.trees.getD s default).address hyp)]) = _
      rw [countNormal_append, countNormal_normal]
      by_cases hsi : s = i
      · subst hsi
        exact absurd ⟨hrci.1, hrci.2⟩ hncond
      · rw [if_neg hsi, Nat.add_zero]
        exact hT1.normalOnce i hrci
    · intro p hp hb
      rcases List.mem_append.mp hp with hp1 | hp2
      · obtain ⟨f, h3, hm3⟩ := hT1.bneNormal p hp1 hb
        exact ⟨f, h3, List.mem_append_left _ hm3⟩
      · have hpe : p = (s, RPNStep.Normal 0 (arr.trees.getD s default).address hyp) := by
          simpa using hp2
        subst hpe
        obtain ⟨n, h3, hb3⟩ := hb
        exact absurd hb3 (by simp)
  · intro i hi
    obtain ⟨q, hq, hle⟩ := hch1 i hi
    have hqs : q.1 < s := hklow q.1 (kids_head_mem arr explicit s q hq)
    exact ⟨(s, hyp), List.mem_singleton.mpr rfl, by omega⟩

theorem stepT_normal_true (arr : ProofTreeArray) (parents : List Nat) (explicit : Bool)
    (s : Nat) (hyp : Option (StatementAddress × Nat)) (env env1 : TEnv)
    (hs : s < arr.trees.length) (hr : Reaches arr s)
    (hklow : ∀ c ∈ childrenOf arr s, c < s)
    (h0 : env.backrefs.getD s 0 = 0)
    (hP : StepPost arr parents (rpnKids explicit (arr.trees.getD s default)) env env1)
    (hcond : 1 < parents.getD s 0 ∧ (arr.trees.getD s default).children ≠ []) :
    StepPost arr parents [(s, hyp)] env
      ⟨env1.out ++ [(s, RPNStep.Normal (env1.count + 1)
          (arr.trees.getD s default).address hyp)],
       env1.backrefs.set s (env1.count + 1), env1.count + 1⟩ := by
  obtain ⟨hT1, ⟨Sk, hSk, hVk⟩, hc1, hset1, hch1⟩ := hP
  have hb1s : env1.backrefs.getD s 0 = 0 := by
    by_cases hch : env1.backrefs.getD s 0 = env.backrefs.getD s 0
    · rw [hch, h0]
    · obtain ⟨q, hq, hle⟩ := hch1 s hch
      have hqs : q.1 < s := hklow q.1 (kids_head_mem arr explicit s q hq)
      omega
  have hlen1 : s < env1.backrefs.length := by rw [hT1.blen]; exact hs
  have hself : (env1.backrefs.set s (env1.count + 1)).getD s 0 = env1.count + 1 :=
    getD_set_self env1.backrefs s (env1.count + 1) hlen1
  refine ⟨?_, ⟨Sk ++ [(s, RPNStep.Normal (env1.count + 1)
      (arr.trees.getD s default).address hyp)],
      by rw [hSk, List.append_assoc],
      vceq_visit arr Sk s (env1.count + 1) _ hyp hyp explicit hVk⟩,
    le_trans hc1 (Nat.le_succ _), ?_, ?_⟩
  · refine ⟨?_, ?_, ?_, ?_, ?_, ?_, ?_, ?_, ?_⟩
    · show (env1.backrefs.set s (env1.count + 1)).length = arr.trees.length
      rw [List.length_set]
      exact hT1.blen
    · intro i
      by_cases hi : i = s
      · subst hi
        show (env1.backrefs.set i (env1.count + 1)).getD i 0 ≤ env1.count + 1
        rw [getD_set_self env1.backrefs i (env1.count + 1) hlen1]
      · show (env1.backrefs.set s (env1.count + 1)).getD i 0 ≤ env1.count + 1
        rw [getD_set_ne env1.backrefs s i (env1.count + 1) hi]
        exact le_trans (hT1.bcount i) (Nat.le_succ _)
    · intro i hi
      by_cases hie : i = s
      · subst hie
        show RCond arr parents i ∧ Reaches arr i ∧ ∃ h,
          (i, RPNStep.Normal ((env1.backrefs.set i (env1.count + 1)).getD i 0)
            (addrOf arr i) h) ∈ env1.out ++ [(i, RPNStep.Normal (env1.count + 1)
            (arr.trees.getD i default).address hyp)]
        rw [getD_set_self env1.backrefs i (env1.count + 1) hlen1]
        exact ⟨⟨hcond.1, hcond.2⟩, hr,
          hyp, List.mem_append_right _ (List.mem_singleton.mpr rfl)⟩
      · show RCond arr parents i ∧ Reaches arr i ∧ ∃ h,
          (i, RPNStep.Normal ((env1.backrefs.set s (env1.count + 1)).getD i 0)
            (addrOf arr i) h) ∈ _
        rw [getD_set_ne env1.backrefs s i (env1.count + 1) hie] at hi ⊢
        obtain ⟨hrc2, hre2, h3, hm3⟩ := hT1.bchar i hi
        exact ⟨hrc2, hre2, h3, List.mem_append_left _ hm3⟩
    · show fwdrefsOf ((env1.out ++ [(s, RPNStep.Normal (env1.count + 1)
        (arr.trees.getD s default).address hyp)]).map Prod.snd) =
          List.range' 1 (env1.count + 1)
      rw [List.map_append, fwdrefsOf_append]
      simp only [List.map_cons, List.map_nil]
      rw [fwdrefsOf_normal, if_neg (Nat.succ_ne_zero _), hT1.fwd, range'_one_concat]
    · show BackrefSound ((env1.out ++ [(s, RPNStep.Normal (env1.count + 1)
        (arr.trees.getD s default).address hyp)]).map Prod.snd)
      rw [List.map_append]
      simp only [List.map_cons, List.map_nil]
      exact backrefSound_append_normal _ _ _ _ hT1.bsound
    · intro n h1 h2
      by_cases hn : n = env1.count + 1
      · subst hn
        exact ⟨s, hs, hself⟩
      · have h2' : n ≤ env1.count := by
          have : n ≤ env1.count + 1 := h2
          omega
        obtain ⟨i, hil, hieq⟩ := hT1.bsurj n h1 h2'
        have hine : i ≠ s := by
          intro he
          subst he
          rw [hb1s] at hieq
          omega
        refine ⟨i, hil, ?_⟩
        show (env1.backrefs.set s (env1.count + 1)).getD i 0 = n
        rw [getD_set_ne env1.backrefs s i (env1.count + 1) hine]
        exact hieq
    · intro p hp
      rcases List.mem_append.mp hp with hp1 | hp2
      · obtain ⟨hpl, hpr, hdisj⟩ := hT1.entsh p hp1
        refine ⟨hpl, hpr, ?_⟩
        rcases hdisj with ⟨f, h3, heq, himp⟩ | ⟨n, h3, heq, hn0, hbe⟩
        · refine Or.inl ⟨f, h3, heq, fun hf => ?_⟩
          have hef := himp hf
          have hpe : p.1 ≠ s := by
            intro he
            rw [he, hb1s] at hef
            exact hf hef.symm
          show (env1.backrefs.set s (env1.count + 1)).getD p.1 0 = f
          rw [getD_set_ne env1.backrefs s p.1 (env1.count + 1) hpe]
          exact hef
        · have hpe : p.1 ≠ s := by
            intro he
            rw [he, hb1s] at hbe
            exact hn0 hbe.symm
          refine Or.inr ⟨n, h3, heq, hn0, ?_⟩
          show (env1.backrefs.set s (env1.count + 1)).getD p.1 0 = n
          rw [getD_set_ne env1.backrefs s p.1 (env1.count + 1) hpe]
          exact hbe
      · have hpe : p = (s, RPNStep.Normal (env1.count + 1)
          (arr.trees.getD s default).address hyp) := by simpa using hp2
        subst hpe
        exact ⟨hs, hr, Or.inl ⟨env1.count + 1, hyp, rfl, fun _ => hself⟩⟩
    · intro i hrci
      show countNormal i (env1.out ++ [(s, RPNStep.Normal (env1.count + 1)
        (arr.trees.getD s default).address hyp)]) =
          if (env1.backrefs.set s (env1.count + 1)).getD i 0 = 0 then 0 else 1
      rw [countNormal_append, countNormal_normal]
      by_cases hsi : s = i
      · subst hsi
        have hcN : countNormal s env1.out = 0 := by
          rw [hT1.normalOnce s hrci, hb1s, if_pos rfl]
        rw [hcN, if_pos rfl, hself, if_neg (Nat.succ_ne_zero env1.count)]
      · rw [if_neg hsi, Nat.add_zero,
          getD_set_ne env1.backrefs s i (env1.count + 1) (fun he => hsi he.symm)]
        exact hT1.normalOnce i hrci
    · intro p hp hb
      rcases List.mem_append.mp hp with hp1 | hp2
      · obtain ⟨f, h3, hm3⟩ := hT1.bneNormal p hp1 hb
        exact ⟨f, h3, List.mem_append_left _ hm3⟩
      · have hpe : p = (s, RPNStep.Normal (env1.count + 1)
          (arr.trees.getD s default).address hyp) := by simpa using hp2
        subst hpe
        obtain ⟨n, h3, hb3⟩ := hb
        exact absurd hb3 (by simp)
  · intro i hi
    have h1i := hset1 i hi
    have hine : i ≠ s := by
      intro he
      rw [he, h0] at hi
      exact hi rfl
    show (env1.backrefs.set s (env1.count + 1)).getD i 0 = env.backrefs.getD i 0
    rw [getD_set_ne env1.backrefs s i (env1.count + 1) hine]
    exact h1i
  · intro i hi
    by_cases hie : i = s
    · exact ⟨(s, hyp), List.mem_singleton.mpr rfl, le_of_eq hie⟩
    · have hi1 : (env1.backrefs.set s (env1.count + 1)).getD i 0 =
        env1.backrefs.getD i 0 := getD_set_ne env1.backrefs s i (env1.count + 1) hie
      rw [hi1] at hi
      obtain ⟨q, hq, hle⟩ := hch1 i hi
      have hqs : q.1 < s := hklow q.1 (kids_head_mem arr explicit s q hq)
      exact ⟨(s, hyp), List.mem_singleton.mpr rfl, by omega⟩

theorem stepT_post (arr : ProofTreeArray) (parents : List Nat) (explicit : Bool)
    (fuel s : Nat) (hyp : Option (StatementAddress × Nat)) (env : TEnv)
    (hs : s < arr.trees.length) (hr : Reaches arr s)
    (hinv : TInv arr parents env)
    (hklow : ∀ c ∈ childrenOf arr s, c < s)
    (hk : env.backrefs.getD s 0 = 0 →
      StepPost arr parents (rpnKids explicit (arr.trees.getD s default)) env
        (output_stepsT arr parents explicit fuel
          (rpnKids explicit (arr.trees.getD s default)) env)) :
    StepPost arr parents [(s, hyp)] env (stepT arr parents explicit fuel s hyp env) := by
  by_cases h0 : env.backrefs.getD s 0 = 0
  · by_cases hcond : 1 < parents.getD s 0 ∧ (arr.trees.getD s default).children ≠ []
    · rw [stepT_eq, if_pos h0, if_pos hcond]
      exact stepT_normal_true arr parents explicit s hyp env _ hs hr hklow h0 (hk h0) hcond
    · rw [stepT_eq, if_pos h0, if_neg hcond]
      exact stepT_normal_false arr parents explicit s hyp env _ hs hr hklow (hk h0) hcond
  · rw [stepT_eq, if_neg h0]
    exact stepT_backref arr parents s hyp env hs hr hinv h0

theorem outputT_main (arr : ProofTreeArray) (parents : List Nat) (explicit : Bool)
    (hwf : WFC arr) :
    ∀ fuel todo env,
      (∀ p ∈ todo, p.1 < arr.trees.length ∧ p.1 < fuel ∧ Reaches arr p.1) →
      TInv arr parents env →
      StepPost arr parents todo env (output_stepsT arr parents explicit fuel todo env) := by
  intro fuel
  induction fuel with
  | zero =>
    intro todo env htodo hinv
    cases todo with
    | nil => exact stepPost_refl arr parents env hinv
    | cons p rest =>
      exact absurd (htodo p (List.mem_cons_self p rest)).2.1 (Nat.not_lt_zero _)
  | succ fuel ihf =>
    intro todo
    induction todo with
    | nil =>
      intro env htodo hinv
      rw [output_stepsT_nil]
      exact stepPost_refl arr parents env hinv
    | cons p rest iht =>
      intro env htodo hinv
      obtain ⟨s, hyp⟩ := p
      rw [output_stepsT_cons_stepT]
      have hhead := htodo (s, hyp) (List.mem_cons_self _ _)
      have hs : s < arr.trees.length := hhead.1
      have hsf : s < fuel + 1 := hhead.2.1
      have hr : Reaches arr s := hhead.2.2
      have hklow : ∀ c ∈ childrenOf arr s, c < s := fun c hc => hwf s hs c hc
      have hstep : StepPost arr parents [(s, hyp)] env
          (stepT arr parents explicit fuel s hyp env) := by
        apply stepT_post arr parents explicit fuel s hyp env hs hr hinv hklow
        intro h0
        apply ihf
        · intro q hq
          have hqc : q.1 ∈ childrenOf arr s := kids_head_mem arr explicit s q hq
          have hqs : q.1 < s := hklow q.1 hqc
          obtain ⟨k, hk2⟩ := hr
          exact ⟨lt_trans hqs hs, by omega, ⟨k + 1, ReachIn.child hk2 hqc⟩⟩
        · exact hinv
      have hrest : StepPost arr parents rest (stepT arr parents explicit fuel s hyp env)
          (output_stepsT arr parents explicit (fuel + 1) rest
            (stepT arr parents explicit fuel s hyp env)) := by
        apply iht
        · intro q hq
          exact htodo q (List.mem_cons_of_mem _ hq)
        · exact hstep.1
      have hcomp := stepPost_compose arr parents [(s, hyp)] rest env _ _ hstep hrest
      simpa using hcomp

theorem to_rpnT_post (arr : ProofTreeArray) (parents : List Nat) (explicit : Bool)
    (hwf : WFC arr) (hq : arr.qed < arr.trees.length) :
    StepPost arr parents [(arr.qed, none)] ⟨[], List.replicate arr.trees.length 0, 0⟩
      (arr.to_rpnT parents explicit) := by
  rw [ProofTreeArray.to_rpnT]
  apply outputT_main arr parents explicit hwf (arr.trees.length + 1) _ _ ?_
    (tinv_init arr parents)
  intro p hp
  have hpe : p = (arr.qed, none) := by simpa using hp
  subst hpe
  exact ⟨hq, by omega, ⟨0, ReachIn.qed⟩⟩

theorem to_rpnEnv_projT (arr : ProofTreeArray) (parents : List Nat) (explicit : Bool) :
    arr.to_rpnEnv parents explicit = projT (arr.to_rpnT parents explicit) := by
  rw [ProofTreeArray.to_rpnEnv, ProofTreeArray.to_rpnT, ← projT_output_steps]
  rfl

theorem reaches_entry (arr : ProofTreeArray) (parents : List Nat) (env : TEnv)
    (hinv : TInv arr parents env)
    (hvc : VCeq arr env.out [(arr.qed, none)]) :
    ∀ i, Reaches arr i → ∃ st, (i, st) ∈ env.out := by
  have key : ∀ i k, ReachIn arr k i → i ∈ env.out.map Prod.fst := by
    intro i k h
    induction h with
    | qed =>
      have hqm : arr.qed ∈ (↑(env.out.map Prod.fst) : Multiset Nat) := by
        rw [VCeq] at hvc
        rw [hvc]
        simp
      exact Multiset.mem_coe.mp hqm
    | @child k2 i2 c2 hki hc ih =>
      obtain ⟨p, hp, hfst⟩ := List.mem_map.mp ih
      obtain ⟨j, st⟩ := p
      have hN : j ∈ normalNodes env.out := by
        cases st with
        | Normal f a h2 => exact mem_normalNodes env.out j f a h2 hp
        | Backref n h2 =>
          obtain ⟨f, h3, hm3⟩ := hinv.bneNormal (j, RPNStep.Backref n h2) hp ⟨n, h2, rfl⟩
          exact mem_normalNodes env.out j f (addrOf arr j) h3 hm3
      have hcm : c2 ∈ (↑(env.out.map Prod.fst) : Multiset Nat) := by
        rw [VCeq] at hvc
        rw [hvc]
        refine Multiset.mem_add.mpr (Or.inr ?_)
        refine Multiset.mem_bind.mpr ⟨j, hN, ?_⟩
        have hj : j = i2 := hfst
        rw [hj]
        exact Multiset.mem_coe.mpr hc
      exact Multiset.mem_coe.mp hcm
  intro i hre
  obtain ⟨k, hk⟩ := hre
  obtain ⟨p, hp, hfst⟩ := List.mem_map.mp (key i k hk)
  obtain ⟨j, st⟩ := p
  have hj : j = i := hfst
  exact ⟨st, hj ▸ hp⟩

/-- C4 (amended): for every well-formed graph with a valid QED index, any parent
count vector and any explicit flag, the output of `to_rpn` is backreference-sound
and its forward-reference numbers are exactly `1, 2, ...` in order of first use; a
node is assigned a number exactly when it is reachable from QED, has a non-empty
child list and its recorded incoming-reference count exceeds one; and every assigned
number belongs to such a node.  (The original claim's final conjunct — every
assigned number is used by a later backreference step — is refuted separately.) -/
theorem c4_backref_soundness (arr : ProofTreeArray) (hwf : WFC arr)
    (hq : arr.qed < arr.trees.length) (parents : List Nat) (explicit : Bool) :
    BackrefSound (arr.to_rpn parents explicit) ∧
    fwdrefsOf (arr.to_rpn parents explicit) =
      List.range' 1 (arr.to_rpnEnv parents explicit).count ∧
    (∀ i, i < arr.trees.length →
      ((arr.to_rpnEnv parents explicit).backrefs.getD i 0 ≠ 0 ↔
        Reaches arr i ∧ RCond arr parents i)) ∧
    (∀ n, 1 ≤ n → n ≤ (arr.to_rpnEnv parents explicit).count →
      ∃ i, i < arr.trees.length ∧
        (arr.to_rpnEnv parents explicit).backrefs.getD i 0 = n ∧
        Reaches arr i ∧ RCond arr parents i) := by
  obtain ⟨hT, ⟨S, hS, hV⟩, _, _, _⟩ := to_rpnT_post arr parents explicit hwf hq
  have hout : (arr.to_rpnT parents explicit).out = S := by simpa using hS
  have hvc : VCeq arr (arr.to_rpnT parents explicit).out [(arr.qed, none)] := by
    rw [hout]
    exact hV
  have hproj := to_rpnEnv_projT arr parents explicit
  have hrpn : arr.to_rpn parents explicit =
      (arr.to_rpnT parents explicit).out.map Prod.snd := by
    rw [ProofTreeArray.to_rpn, hproj]
    rfl
  have hcount : (arr.to_rpnEnv parents explicit).count =
      (arr.to_rpnT parents explicit).count := by
    rw [hproj]
    rfl
  have hbr : (arr.to_rpnEnv parents explicit).backrefs =
      (arr.to_rpnT parents explicit).backrefs := by
    rw [hproj]
    rfl
  refine ⟨?_, ?_, ?_, ?_⟩
  · rw [hrpn]
    exact hT.bsound
  · rw [hrpn, hcount]
    exact hT.fwd
  · intro i hi
    rw [hbr]
    constructor
    · intro hne
      obtain ⟨hrc, hre, _⟩ := hT.bchar i hne
      exact ⟨hre, hrc⟩
    · rintro ⟨hre, hrc⟩
      obtain ⟨st, hst⟩ := reaches_entry arr parents _ hT hvc i hre
      have hN : ∃ f a h2, (i, RPNStep.Normal f a h2) ∈
          (arr.to_rpnT parents explicit).out := by
        cases st with
        | Normal f a h2 => exact ⟨f, a, h2, hst⟩
        | Backref n h2 =>
          obtain ⟨f, h3, hm3⟩ := hT.bneNormal _ hst ⟨n, h2, rfl⟩
          exact ⟨f, addrOf arr i, h3, hm3⟩
      obtain ⟨f, a, h2, hm⟩ := hN
      have hpos := countNormal_pos_of_mem _ i f a h2 hm
      have hco := hT.normalOnce i hrc
      intro h0
      rw [h0, if_pos rfl] at hco
      rw [hco] at hpos
      exact lt_irrefl 0 hpos
  · intro n h1 h2
    rw [hcount] at h2
    obtain ⟨i, hi, hieq⟩ := hT.bsurj n h1 h2
    have hne : (arr.to_rpnT parents explicit).backrefs.getD i 0 ≠ 0 := by
      rw [hieq]
      omega
    obtain ⟨hrc, hre, _⟩ := hT.bchar i hne
    refine ⟨i, hi, ?_, hre, hrc⟩
    rw [hbr]
    exact hieq

/-- C4 counterexample: in `cexArr` (QED = node 1; node 1 has two incoming references,
both from the never-visited node 2, and one child), node 1 is assigned
forward-reference number 1, but the output contains no backreference step at all, so
the claim's final conjunct (every assigned number is used by a later backreference
step) fails. -/
theorem c4_counterexample : ¬C4Claim := by
  intro h
  obtain ⟨hbs, hfwd, hsur⟩ := h cexArr (by decide) (by decide) [1, 2, 0] (by decide) false
  obtain ⟨k, hh, hk⟩ := hsur 1 (by decide) (by decide)
  have hmem := List.get?_mem hk
  have hL : cexArr.to_rpn [1, 2, 0] false =
      [RPNStep.Normal 0 ⟨0⟩ none, RPNStep.Normal 1 ⟨1⟩ none] := by decide
  rw [hL] at hmem
  simp at hmem

theorem c4_witness :
    WFC exArr ∧ exArr.qed < exArr.trees.length ∧
      (BackrefSound (exArr.to_rpn [1, 1, 2, 0] false) ∧
       fwdrefsOf (exArr.to_rpn [1, 1, 2, 0] false) =
         List.range' 1 (exArr.to_rpnEnv [1, 1, 2, 0] false).count ∧
       (∀ i, i < exArr.trees.length →
         ((exArr.to_rpnEnv [1, 1, 2, 0] false).backrefs.getD i 0 ≠ 0 ↔
           Reaches exArr i ∧ RCond exArr [1, 1, 2, 0] i)) ∧
       (∀ n, 1 ≤ n → n ≤ (exArr.to_rpnEnv [1, 1, 2, 0] false).count →
         ∃ i, i < exArr.trees.length ∧
           (exArr.to_rpnEnv [1, 1, 2, 0] false).backrefs.getD i 0 = n ∧
           Reaches exArr i ∧ RCond exArr [1, 1, 2, 0] i)) :=
  ⟨by decide, by decide,
    c4_backref_soundness exArr (by decide) (by decide) [1, 1, 2, 0] false⟩

/-- C5: a node with an empty child list is never assigned a forward-reference
number (its backref slot stays 0), every traced output entry it produces is a
`Normal` step carrying forward-reference 0 and its own address — in particular it
never appears as a `Backref` step — and the traced output projects onto the actual
`to_rpn` output. -/
theorem c5_leaf_exemption (arr : ProofTreeArray) (hwf : WFC arr)
    (hq : arr.qed < arr.trees.length) (parents : List Nat) (explicit : Bool)
    (i : Nat) (hleaf : childrenOf arr i = []) :
    (arr.to_rpnEnv parents explicit).backrefs.getD i 0 = 0 ∧
    (∀ p ∈ (arr.to_rpnT parents explicit).out, p.1 = i →
      ∃ h, p.2 = RPNStep.Normal 0 (addrOf arr i) h) ∧
    arr.to_rpn parents explicit = (arr.to_rpnT parents explicit).out.map Prod.snd := by
  obtain ⟨hT, _, _, _, _⟩ := to_rpnT_post arr parents explicit hwf hq
  have hproj := to_rpnEnv_projT arr parents explicit
  have hrpn : arr.to_rpn parents explicit =
      (arr.to_rpnT parents explicit).out.map Prod.snd := by
    rw [ProofTreeArray.to_rpn, hproj]
    rfl
  have hbr : (arr.to_rpnEnv parents explicit).backrefs =
      (arr.to_rpnT parents explicit).backrefs := by
    rw [hproj]
    rfl
  have h0 : (arr.to_rpnT parents explicit).backrefs.getD i 0 = 0 := by
    by_contra hne
    obtain ⟨hrc, _, _⟩ := hT.bchar i hne
    exact hrc.2 hleaf
  refine ⟨by rw [hbr]; exact h0, ?_, hrpn⟩
  intro p hp hpi
  obtain ⟨_, _, hdisj⟩ := hT.entsh p hp
  rcases hdisj with ⟨f, h2, heq, himp⟩ | ⟨n, h2, heq, hn0, hbe⟩
  · refine ⟨h2, ?_⟩
    by_cases hf : f = 0
    · subst hf
      rw [heq, hpi]
    · exfalso
      have hbf := himp hf
      rw [hpi] at hbf
      rw [hbf] at h0
      exact hf h0
  · exfalso
    rw [hpi] at hbe
    rw [hbe] at h0
    exact hn0 h0

theorem c5_witness :
    WFC exArr ∧ exArr.qed < exArr.trees.length ∧ childrenOf exArr 0 = [] ∧
      ((exArr.to_rpnEnv [1, 1, 2, 0] false).backrefs.getD 0 0 = 0 ∧
       (∀ p ∈ (exArr.to_rpnT [1, 1, 2, 0] false).out, p.1 = 0 →
         ∃ h, p.2 = RPNStep.Normal 0 (addrOf exArr 0) h) ∧
       exArr.to_rpn [1, 1, 2, 0] false =
         (exArr.to_rpnT [1, 1, 2, 0] false).out.map Prod.snd) :=
  ⟨by decide, by decide, by decide,
    c5_leaf_exemption exArr (by decide) (by decide) [1, 1, 2, 0] false 0 (by decide)⟩
